import Mathlib

/-!
Verification of the text-processing core of `knowledge_storm`
(`src/knowledge_storm/utils.py`, class `ArticleTextProcessing`).

Text is modelled as `List Char`.  Modelling conventions, fixed once here:

* Line boundaries are the single character `'\n'` (Python `splitlines` also
  splits on `'\r'`, `'\x0b'`, …; none of the properties below involve those
  characters, so the alphabet is restricted to `'\n'`-terminated lines).
* Python `str.strip()` / regex `\s` use the ASCII whitespace set
  `' '`, `'\t'`, `'\n'`, `'\r'`, `'\x0b'`, `'\x0c'`; Unicode whitespace is
  outside the modelled alphabet.
* Regex `\w` is modelled as ASCII alphanumeric or `'_'`; Unicode word
  characters are outside the modelled alphabet.
-/

namespace Storm

/-- Convert a string literal to the `List Char` text model. -/
def str (s : String) : List Char := s.toList

/-- ASCII whitespace, the model of Python's `str.strip()` set and regex `\s`. -/
def isPySpace (c : Char) : Bool :=
  c = ' ' || c = '\t' || c = '\n' || c = '\r' || c = '\x0b' || c = '\x0c'

/-- Model of regex `\w`: alphanumeric or underscore (ASCII). -/
def isWordChar (c : Char) : Bool :=
  c.isAlphanum || c = '_'

/-- Strip characters satisfying `p` from both ends, Python `str.strip(chars)`. -/
def pyStripWhile (p : Char → Bool) (s : List Char) : List Char :=
  ((s.dropWhile p).reverse.dropWhile p).reverse

/-- Python `str.strip()` (whitespace strip). -/
def pyStrip (s : List Char) : List Char :=
  pyStripWhile isPySpace s

/-- Worker for `splitParagraphs`: `mode = true` while consuming a separator
run of newlines.  `acc` is the current piece, reversed. -/
def splitParagraphsGo : Bool → List Char → List Char → List (List Char)
  | false, acc, [] => [acc.reverse]
  | false, acc, '\n' :: '\n' :: rest => acc.reverse :: splitParagraphsGo true [] rest
  | false, acc, c :: rest => splitParagraphsGo false (c :: acc) rest
  | true, _, [] => [[]]
  | true, _, '\n' :: rest => splitParagraphsGo true [] rest
  | true, _, c :: rest => splitParagraphsGo false [c] rest

/-- Model of `re.split(r"\n{2,}", content)`: split at each maximal run of two
or more newlines. -/
def splitParagraphs (s : List Char) : List (List Char) :=
  splitParagraphsGo false [] s

/-- Worker for `splitlines`; `acc` is the current line, reversed.  A final
newline closes the last line without opening a new one. -/
def splitlinesGo : List Char → List Char → List (List Char)
  | acc, [] => [acc.reverse]
  | acc, c :: rest =>
    if c = '\n' then
      match rest with
      | [] => [acc.reverse]
      | _ :: _ => acc.reverse :: splitlinesGo [] rest
    else splitlinesGo (c :: acc) rest

/-- Python `str.splitlines()` over the `'\n'` alphabet: split on newlines, a
trailing newline produces no final empty line, and `"" → []`. -/
def splitlines : List Char → List (List Char)
  | [] => []
  | s => splitlinesGo [] s

/-- Python `sep.join(pieces)`. -/
def joinSep (sep : List Char) : List (List Char) → List Char
  | [] => []
  | [l] => l
  | l :: l' :: rest => l ++ sep ++ joinSep sep (l' :: rest)

/-- `"\n".join(lines)`. -/
def joinNl (lines : List (List Char)) : List Char :=
  joinSep ['\n'] lines

/-- `" ".join(lines)`. -/
def joinSpace (lines : List (List Char)) : List Char :=
  joinSep [' '] lines

/-- `list(dict.fromkeys(xs))`: drop exact duplicates, keeping the first
occurrence of each element, in order; `seen` holds elements already
emitted. -/
def dedupKeepFirst {α : Type} [DecidableEq α] (seen : List α) : List α → List α
  | [] => []
  | l :: rest =>
    if l ∈ seen then dedupKeepFirst seen rest
    else l :: dedupKeepFirst (l :: seen) rest

/-- Full match of `^\s*[^\w\s]+\s*$` ("orphaned punctuation" line): stripped
of outer whitespace the line is nonempty and all non-word, non-space. -/
def isOrphanPunct (l : List Char) : Bool :=
  let core := pyStrip l
  decide (core ≠ []) && core.all (fun c => !isWordChar c && !isPySpace c)

/-- `re.match(r"^\s*//.*$", line)` on a newline-free line. -/
def isLineComment (l : List Char) : Bool :=
  (str "//").isPrefixOf (l.dropWhile isPySpace)

/-- `re.match(r"^\s*/\*.*?\*/\s*$", line)` on a newline-free line: after
stripping outer whitespace the line starts with `/*`, and what follows that
opener ends with `*/`. -/
def isBlockComment (l : List Char) : Bool :=
  let s1 := l.dropWhile isPySpace
  if (str "/*").isPrefixOf s1 then
    let s3 := ((s1.drop 2).reverse.dropWhile isPySpace).reverse
    (str "/*").isPrefixOf s3.reverse
  else false

/-- `re.match` for one of `^\s*TODO:.*$`, `^\s*FIXME:.*$`, `^\s*DEBUG:.*$`. -/
def isNoteLine (l : List Char) : Bool :=
  let t := l.dropWhile isPySpace
  (str "TODO:").isPrefixOf t || (str "FIXME:").isPrefixOf t ||
    (str "DEBUG:").isPrefixOf t

/-- A line matching any of the five artifact patterns of
`preprocess_content`. -/
def isArtifactLine (l : List Char) : Bool :=
  isLineComment l || isBlockComment l || isNoteLine l

/-- `clean_paragraph` of `ArticleTextProcessing.preprocess_content`:
table paragraphs (a `|` on any line) are rejoined unchanged; other
paragraphs are deduplicated, stripped, orphan-punctuation lines are
replaced by the empty line, artifact lines are dropped, and the survivors
are joined with single spaces. -/
def cleanParagraph (p : List Char) : List Char :=
  let lines := splitlines p
  if lines.any (fun l => l.contains '|') then joinNl lines
  else
    let l1 := dedupKeepFirst [] lines
    let l2 := (l1.map pyStrip).filter (fun l => decide (l ≠ []))
    let l3 := l2.map (fun l => if isOrphanPunct l then [] else l)
    let l4 := l3.filter (fun l => !isArtifactLine l)
    joinSpace l4

/-- `ArticleTextProcessing.preprocess_content`: split into paragraphs on
blank-line runs, drop whitespace-only paragraphs, clean each survivor. -/
def preprocess_content (content : List Char) : List (List Char) :=
  ((splitParagraphs content).filter (fun p => decide (pyStrip p ≠ []))).map
    cleanParagraph

/-! ## Markdown Tree Parser (`parse_article_into_dict`)

A section node is `content` plus an insertion-ordered mapping from title to
child section, modelling the Python `{"content": ..., "subsections": {...}}`
dictionaries.  The parser's stack of aliased dictionaries is modelled as a
stack of frames, each holding the section under construction, its title and
its level; a popped frame is attached into the frame below it, which is
exactly where the Python code inserted the aliased dictionary at push time. -/

/-- A section: content string and insertion-ordered titled subsections. -/
inductive Sec : Type where
  | mk : List Char → List (List Char × Sec) → Sec

instance : Nonempty Sec := ⟨Sec.mk [] []⟩

/-- Content of a section. -/
def Sec.content : Sec → List Char
  | .mk c _ => c

/-- Subsections of a section. -/
def Sec.subsections : Sec → List (List Char × Sec)
  | .mk _ s => s

/-- Insert into an insertion-ordered map, Python `d[k] = v` semantics: an
existing key keeps its position and is overwritten, a new key is appended. -/
def insertOD (k : List Char) (v : Sec) : List (List Char × Sec) → List (List Char × Sec)
  | [] => [(k, v)]
  | (k', v') :: rest =>
    if k' = k then (k, v) :: rest else (k', v') :: insertOD k v rest

/-- Lookup in an insertion-ordered map (first matching key). -/
def lookupOD (k : List Char) : List (List Char × Sec) → Option Sec
  | [] => none
  | (k', v') :: rest => if k' = k then some v' else lookupOD k rest

/-- A parser stack frame: title under which the section will be attached,
the section being built, and the heading level. -/
structure Frame where
  title : List Char
  sec : Sec
  level : Int

/-- Attach the popped frame `f` as a child of the frame `g` directly below
it: `g`'s subsections get `f.sec` under key `f.title`. -/
def attachF (f g : Frame) : Frame :=
  { g with sec := Sec.mk g.sec.content (insertOD f.title f.sec g.sec.subsections) }

/-- `line.startswith("#")`. -/
def startsHash (l : List Char) : Bool :=
  l.head? = some '#'

/-- `line.count("#")` as the parser's heading level (counts every `'#'` in
the line, not only leading ones). -/
def headingLevelOf (l : List Char) : Int :=
  (l.count '#' : Int)

/-- `line.strip("# ").strip()`: the parser's heading title. -/
def headingTitleOf (l : List Char) : List Char :=
  pyStrip (pyStripWhile (fun c => c = '#' || c = ' ') l)

/-- The Python loop `while current_path and current_path[-1][1] >= level:
current_path.pop()`.  The stack is headed by its top frame; popped frames
are attached downward.  If every frame pops, the result is `[]`, the state
in which the following `current_path[-1]` access would raise. -/
def popAll (level : Int) (stack : List Frame) : List Frame :=
  match stack.takeWhile (fun fr => level ≤ fr.level),
      stack.dropWhile (fun fr => level ≤ fr.level) with
  | [], rest => rest
  | _ :: _, [] => []
  | p :: ps, g :: rest => attachF (ps.foldl (fun acc f => attachF acc f) p) g :: rest

/-- One iteration of the parser loop on a cleaned line; `none` models an
`IndexError` from `current_path[-1]` on an empty stack. -/
def stepLine (stack : List Frame) (line : List Char) : Option (List Frame) :=
  if startsHash line then
    match popAll (headingLevelOf line) stack with
    | [] => none
    | fs => some ({ title := headingTitleOf line, sec := Sec.mk [] [],
                    level := headingLevelOf line } :: fs)
  else
    match stack with
    | [] => none
    | top :: rest =>
      some ({ top with
              sec := Sec.mk (top.sec.content ++ line ++ str "\n\n")
                top.sec.subsections } :: rest)

/-- The root frame: `current_path = [(root, -1)]`. -/
def rootFrame : Frame :=
  { title := [], sec := Sec.mk [] [], level := -1 }

/-- Collapse the final stack by attaching every frame downward and return
the root's subsections. -/
def finalizeStack : List Frame → List (List Char × Sec)
  | [] => []
  | f :: fs => ((fs.foldl (fun acc g => attachF acc g) f).sec).subsections

/-- `ArticleTextProcessing.parse_article_into_dict`; `none` models an
uncaught exception. -/
def parse_article_into_dict (input : List Char) : Option (List (List Char × Sec)) :=
  (preprocess_content input).foldlM stepLine [rootFrame] |>.map finalizeStack

/-! ## Citation tokens and decimal rendering -/

/-- Decimal digits of `n`, most significant first; fuelled worker (the fuel
`n + 1` always suffices, see `natCharsAux_fuel`). -/
def natCharsAux : Nat → Nat → List Char → List Char
  | 0, _, acc => acc
  | fuel + 1, n, acc =>
    if n < 10 then Nat.digitChar n :: acc
    else natCharsAux fuel (n / 10) (Nat.digitChar (n % 10) :: acc)

/-- Decimal rendering of a natural number, Python `f"{n}"`. -/
def natChars (n : Nat) : List Char :=
  natCharsAux (n + 1) n []

/-- Numeric value of a digit string, Python `int(ds)` for digit-only `ds`. -/
def digitsVal (ds : List Char) : Nat :=
  ds.foldl (fun a c => 10 * a + (c.toNat - 48)) 0

/-- The citation marker `[n]` as text. -/
def citTk (n : Nat) : List Char :=
  '[' :: (natChars n ++ [']'])

/-- The placeholder `__PLACEHOLDER_{n}__` used by `update_citation_index`. -/
def phTk (n : Nat) : List Char :=
  str "__PLACEHOLDER_" ++ natChars n ++ str "__"

/-- `int(x.strip("[]"))`: the numeric sort key of a citation token. -/
def tokVal (t : List Char) : Nat :=
  digitsVal (pyStripWhile (fun c => c = '[' || c = ']') t)

/-! ## `remove_uncompleted_sentences_with_citations`

Each `re.sub`/`re.finditer` pass is modelled as a one-character-per-step
state machine (structural recursion, so that concrete runs evaluate inside
the kernel).  All accumulators that grow on the left hold reversed text. -/

/-- The character class `[0-9, ]` of the citation-group pattern. -/
def isGroupChar (c : Char) : Bool :=
  c.isDigit || c = ',' || c = ' '

/-- Python `str.split(sep)` (exact separator, leftmost, non-overlapping);
`skip` jumps over the tail of a just-matched separator.  `sep` must be
nonempty (it is `", "` at the only use site). -/
def pySplitSepGo (sep : List Char) : Nat → List Char → List Char → List (List Char)
  | _ + 1, acc, [] => [acc.reverse]
  | n + 1, acc, _ :: rest => pySplitSepGo sep n acc rest
  | 0, acc, [] => [acc.reverse]
  | 0, acc, c :: rest =>
    if sep.isPrefixOf (c :: rest) then
      acc.reverse :: pySplitSepGo sep (sep.length - 1) [] rest
    else pySplitSepGo sep 0 (c :: acc) rest

/-- Python `s.split(sep)`. -/
def pySplitSep (sep s : List Char) : List (List Char) :=
  pySplitSepGo sep 0 [] s

/-- `replace_with_individual_brackets`: `group.split(", ")` rendered as
space-separated bracketed pieces. -/
def renderGroup (run : List Char) : List Char :=
  joinSpace ((pySplitSep (str ", ") run).map (fun n => '[' :: (n ++ [']'])))

/-- Scanner for `re.sub(r"\[([0-9, ]+)\]", replace_with_individual_brackets,
text)`.  State `none` is plain scanning; `some runRev` is inside `[` with
the reversed group characters seen so far.  `out` is reversed output. -/
def splitGroupsGo : Option (List Char) → List Char → List Char → List Char
  | none, out, [] => out.reverse
  | none, out, c :: rest =>
    if c = '[' then splitGroupsGo (some []) out rest
    else splitGroupsGo none (c :: out) rest
  | some run, out, [] => out.reverse ++ '[' :: run.reverse
  | some run, out, c :: rest =>
    if isGroupChar c then splitGroupsGo (some (c :: run)) out rest
    else if c = ']' && decide (run ≠ []) then
      splitGroupsGo none ((renderGroup run.reverse).reverse ++ out) rest
    else
      -- no match at this `[`; emit it literally and rescan from `c`
      if c = '[' then splitGroupsGo (some []) (run ++ '[' :: out) rest
      else splitGroupsGo none (c :: (run ++ '[' :: out)) rest

/-- First canonicalisation pass of the trimmer: split grouped citations. -/
def splitGroups (s : List Char) : List Char :=
  splitGroupsGo none [] s

/-- `deduplicate_group`: string-deduplicate the tokens of one adjacent run,
sort by numeric value, concatenate.  `list(set(...))` is modelled as
first-occurrence order; CPython's set iteration order is unspecified, which
can differ only when two distinct token strings share a numeric value
(e.g. `[1]` and `[01]`), and the subsequent stable sort hides the
difference otherwise. -/
def dedupRender (toks : List (List Char)) : List Char :=
  (List.insertionSort (fun a b => tokVal a ≤ tokVal b)
    (dedupKeepFirst [] toks)).flatten

/-- Scanner for `re.sub(r"(\[\d+\])+", deduplicate_group, text)`.
State: `P` = complete tokens of the current adjacent run (in order);
`D = some digsRev` while inside `[` with the reversed digits seen so far,
`D = none` between complete tokens.  `out` is reversed output. -/
def dedupAdjGo : List (List Char) → Option (List Char) → List Char → List Char → List Char
  | [], none, out, [] => out.reverse
  | [], none, out, c :: rest =>
    if c = '[' then dedupAdjGo [] (some []) out rest
    else dedupAdjGo [] none (c :: out) rest
  | p :: ps, none, out, [] => out.reverse ++ dedupRender (p :: ps)
  | p :: ps, none, out, c :: rest =>
    if c = '[' then dedupAdjGo (p :: ps) (some []) out rest
    else dedupAdjGo [] none (c :: ((dedupRender (p :: ps)).reverse ++ out)) rest
  | pToks, some digs, out, [] =>
    out.reverse ++ dedupRender pToks ++ '[' :: digs.reverse
  | pToks, some digs, out, c :: rest =>
    if c.isDigit then dedupAdjGo pToks (some (c :: digs)) out rest
    else if c = ']' && decide (digs ≠ []) then
      dedupAdjGo (pToks ++ ['[' :: (digs.reverse ++ [']'])]) none out rest
    else
      -- broken token: flush the run and the literal `[digs`, rescan at `c`
      let out' := digs ++ '[' :: ((dedupRender pToks).reverse ++ out)
      if c = '[' then dedupAdjGo [] (some []) out' rest
      else dedupAdjGo [] none (c :: out') rest

/-- Second canonicalisation pass of the trimmer: deduplicate and sort each
maximal run of textually adjacent citation markers. -/
def dedupAdjacent (s : List Char) : List Char :=
  dedupAdjGo [] none [] s

/-- Sentence terminators of the pattern `([.!?])\s*(\[\d+\])?\s*`. -/
def isEosChar (c : Char) : Bool :=
  c = '.' || c = '!' || c = '?'

/-- States of the `re.finditer(eos_pattern, text)` scanner.  `w1`: inside
the first `\s*` (a citation may still follow); `dd preB digs`: inside
`\[\d+\]` (`preB` = reversed prefix at the bracket, the match end if the
bracket fails to close); `w2`: inside the final `\s*`. -/
inductive EosState : Type where
  | s0 : EosState
  | w1 : EosState
  | dd : List Char → List Char → EosState
  | w2 : EosState

/-- Scanner computing the reversed prefix of the text at the end of the
last `eos_pattern` match, if any; `pre` is the reversed consumed text and
`best` the reversed prefix at the last match end seen so far. -/
def eosGo : EosState → List Char → Option (List Char) → List Char → Option (List Char)
  | .s0, _, best, [] => best
  | .s0, pre, best, c :: rest =>
    if isEosChar c then eosGo .w1 (c :: pre) best rest
    else eosGo .s0 (c :: pre) best rest
  | .w1, pre, _, [] => some pre
  | .w1, pre, best, c :: rest =>
    if isPySpace c then eosGo .w1 (c :: pre) best rest
    else if c = '[' then eosGo (.dd pre []) (c :: pre) best rest
    else if isEosChar c then eosGo .w1 (c :: pre) (some pre) rest
    else eosGo .s0 (c :: pre) (some pre) rest
  | .dd preB _, _, _, [] => some preB
  | .dd preB digs, pre, best, c :: rest =>
    if c.isDigit then eosGo (.dd preB (c :: digs)) (c :: pre) best rest
    else if c = ']' && decide (digs ≠ []) then eosGo .w2 (c :: pre) best rest
    else
      -- the optional citation group fails; the match ended at `preB`
      if isEosChar c then eosGo .w1 (c :: pre) (some preB) rest
      else eosGo .s0 (c :: pre) (some preB) rest
  | .w2, pre, _, [] => some pre
  | .w2, pre, best, c :: rest =>
    if isPySpace c then eosGo .w2 (c :: pre) best rest
    else if isEosChar c then eosGo .w1 (c :: pre) (some pre) rest
    else eosGo .s0 (c :: pre) (some pre) rest

/-- Reversed prefix of `s` ending at the end of the last match of
`([.!?])\s*(\[\d+\])?\s*`, or `none` when the pattern never matches. -/
def lastEosPrefix (s : List Char) : Option (List Char) :=
  eosGo .s0 [] none s

/-- `ArticleTextProcessing.remove_uncompleted_sentences_with_citations`. -/
def remove_uncompleted_sentences_with_citations (text : List Char) : List Char :=
  let t2 := dedupAdjacent (splitGroups text)
  match lastEosPrefix t2 with
  | some preRev => pyStrip preRev.reverse
  | none => t2

/-! ## `update_citation_index` -/

/-- Python `str.replace(pat, rep)` worker: scan left to right, replace each
non-overlapping occurrence; `skip` jumps over the tail of a replaced
occurrence. -/
def replaceAllGo (pat rep : List Char) : Nat → List Char → List Char
  | 0, [] => []
  | 0, c :: rest =>
    if pat.isPrefixOf (c :: rest) then
      rep ++ replaceAllGo pat rep (pat.length - 1) rest
    else c :: replaceAllGo pat rep 0 rest
  | _ + 1, [] => []
  | n + 1, _ :: rest => replaceAllGo pat rep n rest

/-- Python `s.replace(pat, rep)` for nonempty `pat` (every pattern used by
`update_citation_index` is nonempty; for `pat = []` we return `s`). -/
def replaceAll (pat rep s : List Char) : List Char :=
  if pat = [] then s else replaceAllGo pat rep 0 s

/-- `ArticleTextProcessing.update_citation_index`: first rewrite every
`[old]` to `__PLACEHOLDER_{old}__`, then every placeholder to `[new]`.
The citation map is an insertion-ordered association list with distinct
keys, modelling a Python `dict[int, int]`. -/
def update_citation_index (s : List Char) (citation_map : List (Nat × Nat)) : List Char :=
  let s1 := citation_map.foldl (fun t kv => replaceAll (citTk kv.1) (phTk kv.1) t) s
  citation_map.foldl (fun t kv => replaceAll (phTk kv.1) (citTk kv.2) t) s1

/-- Modelled from the spec, for comparison with `update_citation_index`:
the simultaneous rewrite of every occurrence of `[old]` to `[new]` in a
single left-to-right pass (`remap` of §4.4: "rewrite every occurrence of
`[old]` to `[new]`" with no double-substitution). -/
def simSubstGo (m : List (Nat × Nat)) : Nat → List Char → List Char
  | 0, [] => []
  | 0, c :: rest =>
    match m.find? (fun kv => (citTk kv.1).isPrefixOf (c :: rest)) with
    | some kv => citTk kv.2 ++ simSubstGo m ((citTk kv.1).length - 1) rest
    | none => c :: simSubstGo m 0 rest
  | _ + 1, [] => []
  | n + 1, _ :: rest => simSubstGo m n rest

/-- Modelled from the spec: simultaneous citation remapping. -/
def simSubst (m : List (Nat × Nat)) (s : List Char) : List Char :=
  simSubstGo m 0 s

/-- Bool test for "`pat` occurs as a substring of `s`". -/
def hasSubstr (pat : List Char) : List Char → Bool
  | [] => pat.isPrefixOf []
  | c :: rest => pat.isPrefixOf (c :: rest) || hasSubstr pat rest

/-! ## Spec-side definitions and proof-side notions -/

/-- Modelled from the spec (§4.2): "level = count of leading `'#'`", for
comparison with the parser's `headingLevelOf`. -/
def specLeadingHashCount (l : List Char) : Int :=
  ((l.takeWhile (fun c => c = '#')).length : Int)

/-- A well-formed parser stack: nonempty, with the bottom (root) frame at
level `-1`. -/
def GoodStack (stack : List Frame) : Prop :=
  ∃ pre f, stack = pre ++ [f] ∧ f.level = -1

/-- First-occurrence deduplication then stable sort ascending by numeric
value: the normal form of one adjacent citation run, by key list. -/
def sortedDedupNats (ks : List Nat) : List Nat :=
  List.insertionSort (fun a b => a ≤ b) (dedupKeepFirst [] ks)

/-! ## Proof-side view of `update_citation_index`: tokenisation

To reason about the two replacement passes, a text is decomposed into the
occurrences of the citation tokens of the map (`tokCi`) and the raw text
between them; the passes are then shown to rewrite exactly the token
positions.  `Toks` pairs each token with the raw text preceding it. -/

/-- Segments: (raw text before the token, the map entry of the token). -/
abbrev Toks : Type := List (List Char × (Nat × Nat))

/-- Tokenise `s` against the citation map `m`: greedy left-to-right scan
splitting `s` into raw text and occurrences of `[k]` for keys `k` of `m`
(the scan mirrors the first replacement pass's match positions).  Returns
the segments and the trailing raw text. -/
def tokCi (m : List (Nat × Nat)) : List Char → Toks × List Char
  | [] => ([], [])
  | c :: rest =>
    match m.find? (fun kv => (citTk kv.1).isPrefixOf (c :: rest)) with
    | some kv =>
      let r := tokCi m ((c :: rest).drop (citTk kv.1).length)
      (([], kv) :: r.1, r.2)
    | none =>
      let r := tokCi m rest
      match r.1 with
      | [] => ([], c :: r.2)
      | (raw, kv') :: T' => ((c :: raw, kv') :: T', r.2)
termination_by s => s.length
decreasing_by
  · simp [citTk]
    omega
  · simp

/-- Render a segment list, mapping each token entry through `f`. -/
def renderToks (f : Nat × Nat → List Char) : Toks → List Char → List Char
  | [], last => last
  | (raw, kv) :: rest, last => raw ++ f kv ++ renderToks f rest last

/-- No occurrence of the token `[k]` inside `r`, not even ending at its
right edge: no suffix of `r` starts with `citTk k`. -/
def CitFree (k : Nat) (r : List Char) : Prop :=
  ∀ u, u <:+ r → ¬ citTk k <+: u

/-- Raw text free of the letter block `PLACEHOLDER`, so no placeholder
occurrence can be forged across segment boundaries. -/
def Hygienic (r : List Char) : Prop :=
  ¬ str "PLACEHOLDER" <:+: r

/-! # Theorems -/

/-! ## Ordered-map insertion (parser sibling semantics) -/

theorem insertOD_keys (k : List Char) (v : Sec) (m : List (List Char × Sec)) :
    (insertOD k v m).map Prod.fst =
      if k ∈ m.map Prod.fst then m.map Prod.fst else m.map Prod.fst ++ [k] := by
  induction m with
  | nil => simp [insertOD]
  | cons kv rest ih =>
    obtain ⟨k', v'⟩ := kv
    by_cases h : k' = k
    · subst h
      rw [show insertOD k' v ((k', v') :: rest) = (k', v) :: rest from by
        simp [insertOD]]
      simp
    · have h' : ¬ k = k' := fun hh => h hh.symm
      rw [show insertOD k v ((k', v') :: rest) = (k', v') :: insertOD k v rest from by
        simp [insertOD, h]]
      simp only [List.map_cons, ih, List.mem_cons, h', false_or]
      by_cases hm : k ∈ rest.map Prod.fst
      · simp [hm]
      · simp [hm]

theorem lookupOD_insertOD (k : List Char) (v : Sec) (m : List (List Char × Sec)) :
    lookupOD k (insertOD k v m) = some v := by
  induction m with
  | nil => simp [insertOD, lookupOD]
  | cons kv rest ih =>
    obtain ⟨k', v'⟩ := kv
    by_cases h : k' = k
    · subst h
      simp [insertOD, lookupOD]
    · simp [insertOD, lookupOD, h, ih]

/-! ## Parser totality (stack never underflows) -/

theorem attachF_level (f g : Frame) : (attachF f g).level = g.level := rfl

theorem headingLevel_pos (l : List Char) (h : startsHash l = true) :
    1 ≤ headingLevelOf l := by
  cases l with
  | nil => simp [startsHash] at h
  | cons c rest =>
    have hc : c = '#' := by simpa [startsHash] using h
    subst hc
    have hcount : List.count '#' ('#' :: rest) = List.count '#' rest + 1 := by
      simp [List.count_cons]
    simp only [headingLevelOf, hcount]
    omega

theorem dropWhile_last_stable {p : Frame → Bool} {f : Frame} (hf : p f = false) :
    ∀ pre : List Frame, ∃ q, (pre ++ [f]).dropWhile p = q ++ [f] := by
  intro pre
  induction pre with
  | nil => exact ⟨[], by simp [List.dropWhile, hf]⟩
  | cons a rest ih =>
    by_cases ha : p a
    · obtain ⟨q, hq⟩ := ih
      exact ⟨q, by simp [List.dropWhile, ha, hq]⟩
    · exact ⟨a :: (rest ++ []), by simp [List.dropWhile, ha]⟩

theorem goodStack_cons (g : Frame) {s : List Frame} (h : GoodStack s) :
    GoodStack (g :: s) := by
  obtain ⟨pre, f, rfl, hf⟩ := h
  exact ⟨g :: pre, f, rfl, hf⟩

theorem goodStack_head_irrel {g g' : Frame} {rest : List Frame}
    (h : GoodStack (g :: rest)) (hl : g'.level = g.level) :
    GoodStack (g' :: rest) := by
  obtain ⟨pre, f, hsplit, hf⟩ := h
  cases pre with
  | nil =>
    simp only [List.nil_append, List.cons.injEq] at hsplit
    obtain ⟨rfl, rfl⟩ := hsplit
    exact ⟨[], g', rfl, by rw [hl, hf]⟩
  | cons a pre' =>
    simp only [List.cons_append, List.cons.injEq] at hsplit
    obtain ⟨rfl, hrest⟩ := hsplit
    exact ⟨g' :: pre', f, by simp [hrest], hf⟩

theorem popAll_good (level : Int) (s : List Frame) (h1 : 1 ≤ level)
    (hs : GoodStack s) : popAll level s ≠ [] ∧ GoodStack (popAll level s) := by
  obtain ⟨pre, f, rfl, hf⟩ := hs
  have hpf : (fun fr : Frame => decide (level ≤ fr.level)) f = false := by
    simp only [hf, decide_eq_false_iff_not]
    omega
  obtain ⟨q, hq⟩ :=
    dropWhile_last_stable (p := fun fr : Frame => decide (level ≤ fr.level)) hpf pre
  cases htk : (pre ++ [f]).takeWhile (fun fr : Frame => decide (level ≤ fr.level)) with
  | nil =>
    have hres : popAll level (pre ++ [f]) = q ++ [f] := by
      unfold popAll
      rw [htk, hq]
    rw [hres]
    exact ⟨by simp, ⟨q, f, rfl, hf⟩⟩
  | cons p0 ps =>
    cases q with
    | nil =>
      have hres : popAll level (pre ++ [f]) =
          [attachF (ps.foldl (fun acc g => attachF acc g) p0) f] := by
        unfold popAll
        rw [htk, hq]
        simp
      rw [hres]
      refine ⟨by simp, ⟨[], _, rfl, ?_⟩⟩
      rw [attachF_level, hf]
    | cons a q' =>
      have hres : popAll level (pre ++ [f]) =
          attachF (ps.foldl (fun acc g => attachF acc g) p0) a :: (q' ++ [f]) := by
        unfold popAll
        rw [htk, hq]
        simp
      rw [hres]
      exact ⟨by simp, ⟨_ :: q', f, rfl, hf⟩⟩

theorem stepLine_good (line : List Char) (s : List Frame) (hs : GoodStack s) :
    ∃ s', stepLine s line = some s' ∧ GoodStack s' := by
  by_cases hh : startsHash line
  · obtain ⟨hne, hgood⟩ :=
      popAll_good (headingLevelOf line) s (headingLevel_pos line hh) hs
    cases hpa : popAll (headingLevelOf line) s with
    | nil => exact absurd hpa hne
    | cons g rest =>
      rw [hpa] at hgood
      have hval : stepLine s line =
          some ({ title := headingTitleOf line, sec := Sec.mk [] [],
                  level := headingLevelOf line } :: g :: rest) := by
        simp [stepLine, hh, hpa]
      exact ⟨_, hval, goodStack_cons _ hgood⟩
  · have htop : ∃ top rest, s = top :: rest := by
      obtain ⟨pre, f, rfl, hf⟩ := hs
      cases pre with
      | nil => exact ⟨f, [], rfl⟩
      | cons a pre' => exact ⟨a, pre' ++ [f], rfl⟩
    obtain ⟨top, rest, rfl⟩ := htop
    have hval : stepLine (top :: rest) line =
        some ({ top with
                sec := Sec.mk (top.sec.content ++ line ++ str "\n\n")
                  top.sec.subsections } :: rest) := by
      simp [stepLine, hh]
    exact ⟨_, hval, goodStack_head_irrel hs rfl⟩

theorem foldl_stepLine_good (lines : List (List Char)) :
    ∀ s : List Frame, GoodStack s →
      ∃ s', List.foldlM stepLine s lines = some s' ∧ GoodStack s' := by
  induction lines with
  | nil => exact fun s hs => ⟨s, rfl, hs⟩
  | cons l rest ih =>
    intro s hs
    obtain ⟨s1, h1, hg1⟩ := stepLine_good l s hs
    obtain ⟨s2, h2, hg2⟩ := ih s1 hg1
    exact ⟨s2, by simp [List.foldlM, h1, h2], hg2⟩

/-- C9: `parse_article_into_dict` is total: for every input string the
virtual root (level `-1`) is never popped by a heading (whose level is at
least `1`), the stack stays nonempty, and the function returns a mapping
rather than raising. -/
theorem C9_parse_total (input : List Char) :
    ∃ m, parse_article_into_dict input = some m := by
  have hroot : GoodStack [rootFrame] := ⟨[], rootFrame, rfl, rfl⟩
  obtain ⟨s', h, _⟩ := foldl_stepLine_good (preprocess_content input) [rootFrame] hroot
  exact ⟨finalizeStack s', by simp [parse_article_into_dict, h]⟩

/-! ## C2: the depth-skip example -/

/-- C2 (counterexample): on the exact input `"# A\n### B\ntext"` the
sanitizer joins the whole paragraph into the single line
`"# A ### B text"`, so the parser produces one top-level section titled
`"A ### B text"` — there is no top-level key `"A"` at all, hence `B` is not
placed as a child of `A`. -/
theorem C2_counterexample :
    parse_article_into_dict (str "# A\n### B\ntext") =
        some [(str "A ### B text", Sec.mk [] [])] ∧
      (parse_article_into_dict (str "# A\n### B\ntext")).map
          (List.map Prod.fst) ≠ some [str "A"] :=
  ⟨by rfl, by decide⟩

/-- C2 (amended): when the headings and the text are separated by blank
lines — `"# A\n\n### B\n\ntext"` — the parser does yield `B` as a child of
`A` (depth skip accepted), with content `"text\n\n"` (the parser appends a
blank-line separator to each content line). -/
theorem C2_depth_skip_blank_lines :
    parse_article_into_dict (str "# A\n\n### B\n\ntext") =
      some [(str "A", Sec.mk [] [(str "B", Sec.mk (str "text\n\n") [])])] := by
  rfl

/-! ## C4: heading level and title extraction -/

/-- C4 (counterexample): the parser computes the level with
`line.count("#")`, which counts every `'#'` in the line; on the sanitized
line `"# A#"` (which starts with `'#'`) it yields `2`, not the leading
count `1`. -/
theorem C4_counterexample :
    startsHash (str "# A#") = true ∧
      headingLevelOf (str "# A#") ≠ specLeadingHashCount (str "# A#") := by
  decide

theorem count_takeWhile_hash (l : List Char) :
    List.count '#' (l.takeWhile (fun c => c = '#')) =
      (l.takeWhile (fun c => c = '#')).length := by
  rw [List.count_eq_length]
  intro b hb
  have hpb := List.mem_takeWhile_imp hb
  have : b = '#' := by simpa using hpb
  exact this.symm

/-- C4 (amended): the level of a heading line is the count of all `'#'`
characters in it; this agrees with the count of leading `'#'` characters
exactly when no `'#'` occurs after the leading run (the title is the line
stripped of `'#'` and spaces at both ends, then whitespace-trimmed, as in
the code). -/
theorem C4_leading_count_when_no_late_hash (l : List Char)
    (h : startsHash l = true)
    (hno : ∀ c ∈ l.dropWhile (fun c => c = '#'), c ≠ '#') :
    headingLevelOf l = specLeadingHashCount l := by
  have hsplit := List.takeWhile_append_dropWhile
    (p := fun c => decide (c = '#')) (l := l)
  have hcount : List.count '#' l =
      List.count '#' (l.takeWhile (fun c => decide (c = '#'))) +
        List.count '#' (l.dropWhile (fun c => decide (c = '#'))) := by
    conv_lhs => rw [← hsplit]
    exact List.count_append _ _ _
  have h0 : List.count '#' (l.dropWhile (fun c => decide (c = '#'))) = 0 :=
    List.count_eq_zero.mpr (fun hmem => hno _ hmem rfl)
  simp only [headingLevelOf, specLeadingHashCount, hcount, h0,
    count_takeWhile_hash]
  omega

/-- Witness for `C4_leading_count_when_no_late_hash` at the concrete line
`"## Title"`. -/
theorem C4_witness :
    headingLevelOf (str "## Title") = specLeadingHashCount (str "## Title") :=
  C4_leading_count_when_no_late_hash (str "## Title") (by decide) (by decide)

/-! ## C5: the trimmer example -/

/-- C5: `remove_uncompleted_sentences_with_citations` truncates
`"Paris is the capital.[1] And unfinished"` at the end of the last match of
`([.!?])\s*(\[\d+\])?\s*`, dropping the trailing fragment. -/
theorem C5_trim_example :
    remove_uncompleted_sentences_with_citations
        (str "Paris is the capital.[1] And unfinished") =
      str "Paris is the capital.[1]" := by
  decide

/-! ## C8: duplicate sibling titles -/

theorem count_keys_insertOD (k : List Char) (v : Sec) (m : List (List Char × Sec))
    (hnd : (m.map Prod.fst).Nodup) :
    ((insertOD k v m).map Prod.fst).count k = 1 := by
  induction m with
  | nil => simp [insertOD]
  | cons kv rest ih =>
    obtain ⟨k', v'⟩ := kv
    simp only [List.map_cons, List.nodup_cons] at hnd
    by_cases h : k' = k
    · subst h
      rw [show insertOD k' v ((k', v') :: rest) = (k', v) :: rest from by
        simp [insertOD]]
      have h0 : (rest.map Prod.fst).count k' = 0 :=
        List.count_eq_zero.mpr hnd.1
      simp [List.count_cons, h0]
    · rw [show insertOD k v ((k', v') :: rest) = (k', v') :: insertOD k v rest from by
        simp [insertOD, h]]
      have hrec := ih hnd.2
      simp [List.count_cons, hrec, h]

/-- C8: the parser's child insertion (`insertOD`, modelling
`subsections[title] = new_section`) overwrites an existing sibling of the
same title — the new (empty) section replaces the old entry, the key is
kept exactly once — and end to end, re-parsing a duplicated `"# A"` keeps
only the second section's content, dropping the first one's content and
subsections. -/
theorem C8_duplicate_sibling_overwrites :
    (∀ (k : List Char) (v : Sec) (m : List (List Char × Sec)),
        (m.map Prod.fst).Nodup →
        lookupOD k (insertOD k v m) = some v ∧
          ((insertOD k v m).map Prod.fst).count k = 1 ∧
          ((insertOD k v m).map Prod.fst).Nodup) ∧
      parse_article_into_dict
          (str "# A\n\nfirst\n\n## S\n\nx\n\n# A\n\nsecond") =
        some [(str "A", Sec.mk (str "second\n\n") [])] := by
  constructor
  · intro k v m hnd
    refine ⟨lookupOD_insertOD k v m, ?_, ?_⟩
    · exact count_keys_insertOD k v m hnd
    · rw [insertOD_keys]
      by_cases hm : k ∈ m.map Prod.fst
      · rwa [if_pos hm]
      · rw [if_neg hm]
        refine List.Nodup.append hnd (List.nodup_singleton k) ?_
        intro a ha hb
        rw [List.mem_singleton] at hb
        subst hb
        exact hm ha
  · rfl

/-- Witness for the universal part of `C8_duplicate_sibling_overwrites`,
at a concrete two-entry map with distinct keys. -/
theorem C8_witness :
    lookupOD (str "A")
        (insertOD (str "A") (Sec.mk (str "second") [])
          [(str "A", Sec.mk (str "first") [(str "S", Sec.mk [] [])]),
            (str "B", Sec.mk [] [])]) = some (Sec.mk (str "second") []) ∧
      ((insertOD (str "A") (Sec.mk (str "second") [])
          [(str "A", Sec.mk (str "first") [(str "S", Sec.mk [] [])]),
            (str "B", Sec.mk [] [])]).map Prod.fst).count (str "A") = 1 := by
  have h := C8_duplicate_sibling_overwrites.1 (str "A") (Sec.mk (str "second") [])
    [(str "A", Sec.mk (str "first") [(str "S", Sec.mk [] [])]),
      (str "B", Sec.mk [] [])] (by decide)
  exact ⟨h.1, h.2.1⟩

/-! ## Lines and joins: supporting lemmas for C6 and C7 -/

theorem splitlinesGo_nil (acc : List Char) : splitlinesGo acc [] = [acc.reverse] :=
  rfl

theorem splitlinesGo_nl_nil (acc : List Char) :
    splitlinesGo acc ['\n'] = [acc.reverse] := rfl

theorem splitlinesGo_nl_cons (acc : List Char) (d : Char) (rest' : List Char) :
    splitlinesGo acc ('\n' :: d :: rest') =
      acc.reverse :: splitlinesGo [] (d :: rest') := rfl

theorem splitlinesGo_other (acc : List Char) {c : Char} (rest : List Char)
    (hc : c ≠ '\n') : splitlinesGo acc (c :: rest) = splitlinesGo (c :: acc) rest := by
  simp [splitlinesGo, hc]

theorem splitlinesGo_ne_nil (s : List Char) : ∀ acc : List Char,
    splitlinesGo acc s ≠ [] := by
  induction s with
  | nil => intro acc; simp [splitlinesGo]
  | cons c rest ih =>
    intro acc
    by_cases hc : c = '\n'
    · subst hc
      cases rest with
      | nil => simp [splitlinesGo]
      | cons d rest' => simp [splitlinesGo]
    · simpa [splitlinesGo, hc] using ih (c :: acc)

theorem splitlinesGo_no_nl (s : List Char) : ∀ acc : List Char, '\n' ∉ acc →
    ∀ l ∈ splitlinesGo acc s, '\n' ∉ l := by
  induction s with
  | nil =>
    intro acc hacc l hl
    simp only [splitlinesGo, List.mem_singleton] at hl
    subst hl
    simpa using hacc
  | cons c rest ih =>
    intro acc hacc l hl
    by_cases hc : c = '\n'
    · subst hc
      cases rest with
      | nil =>
        rw [splitlinesGo_nl_nil, List.mem_singleton] at hl
        subst hl
        simpa using hacc
      | cons d rest' =>
        rw [splitlinesGo_nl_cons, List.mem_cons] at hl
        rcases hl with rfl | hl
        · simpa using hacc
        · exact ih [] (by simp) l hl
    · rw [splitlinesGo_other acc rest hc] at hl
      refine ih (c :: acc) ?_ l hl
      intro hmem
      rcases List.mem_cons.mp hmem with h1 | h1
      · exact hc h1.symm
      · exact hacc h1

theorem splitlines_no_nl (s : List Char) : ∀ l ∈ splitlines s, '\n' ∉ l := by
  cases s with
  | nil => simp [splitlines]
  | cons c rest =>
    exact splitlinesGo_no_nl (c :: rest) [] (by simp)

theorem joinSep_splitlinesGo (s : List Char) : ∀ acc : List Char,
    s.getLast? ≠ some '\n' →
    joinSep ['\n'] (splitlinesGo acc s) = acc.reverse ++ s := by
  induction s with
  | nil => intro acc _; simp [splitlinesGo, joinSep]
  | cons c rest ih =>
    intro acc h
    by_cases hc : c = '\n'
    · subst hc
      cases rest with
      | nil => simp at h
      | cons d rest' =>
        have hlast : (d :: rest').getLast? ≠ some '\n' := by
          rwa [List.getLast?_cons_cons] at h
        rw [splitlinesGo_nl_cons]
        cases hgo : splitlinesGo [] (d :: rest') with
        | nil => exact absurd hgo (splitlinesGo_ne_nil (d :: rest') [])
        | cons x xs =>
          rw [show joinSep ['\n'] (acc.reverse :: x :: xs) =
              acc.reverse ++ ['\n'] ++ joinSep ['\n'] (x :: xs) from rfl]
          rw [← hgo, ih [] hlast]
          simp
    · rw [splitlinesGo_other acc rest hc]
      have hlast : rest.getLast? ≠ some '\n' := by
        cases rest with
        | nil => simp
        | cons d rest' => rwa [List.getLast?_cons_cons] at h
      rw [ih (c :: acc) hlast]
      simp

theorem mem_of_dedupKeepFirst {α : Type} [DecidableEq α] {x : α} :
    ∀ (seen xs : List α), x ∈ dedupKeepFirst seen xs → x ∈ xs := by
  intro seen xs
  induction xs generalizing seen with
  | nil => simp [dedupKeepFirst]
  | cons a rest ih =>
    intro h
    by_cases ha : a ∈ seen
    · simp only [dedupKeepFirst, if_pos ha] at h
      exact List.mem_cons_of_mem a (ih seen h)
    · simp only [dedupKeepFirst, if_neg ha] at h
      rcases List.mem_cons.mp h with rfl | h'
      · exact List.mem_cons_self _ _
      · exact List.mem_cons_of_mem a (ih _ h')

theorem mem_pyStrip {c : Char} {l : List Char} (h : c ∈ pyStrip l) : c ∈ l := by
  unfold pyStrip pyStripWhile at h
  rw [List.mem_reverse] at h
  have h2 : c ∈ (l.dropWhile isPySpace).reverse :=
    (List.dropWhile_sublist _).mem h
  rw [List.mem_reverse] at h2
  exact (List.dropWhile_sublist _).mem h2

theorem mem_joinSep {c : Char} {sep : List Char} :
    ∀ L : List (List Char), c ∈ joinSep sep L → c ∈ sep ∨ ∃ l ∈ L, c ∈ l := by
  intro L
  induction L with
  | nil => intro h; simp [joinSep] at h
  | cons l L' ih =>
    cases L' with
    | nil =>
      intro h
      simp only [joinSep] at h
      exact Or.inr ⟨l, by simp, h⟩
    | cons l2 L'' =>
      intro h
      simp only [joinSep] at h
      rw [List.mem_append, List.mem_append] at h
      rcases h with (h | h) | h
      · exact Or.inr ⟨l, by simp, h⟩
      · exact Or.inl h
      · rcases ih h with h' | ⟨x, hx, hcx⟩
        · exact Or.inl h'
        · exact Or.inr ⟨x, by simp [hx], hcx⟩

/-! ## C6: non-table paragraph cleaning -/

/-- C6 (counterexample): the punctuation-only line `"."` in `"a\n.\nb"` is
replaced by an empty string that stays in the space-join, leaving the
doubled space residue `"a  b"` — the claim's "no residue such as doubled
spaces" fails. -/
theorem C6_counterexample :
    cleanParagraph (str "a\n.\nb") = str "a  b" ∧
      hasSubstr (str "  ") (cleanParagraph (str "a\n.\nb")) = true ∧
      cleanParagraph (str "a\n.\nb") ≠ str "a b" := by
  decide

/-- C6 (amended): for non-table paragraphs the sanitizer deduplicates
exact-duplicate lines (first occurrence kept), strips blank lines, drops
artifact lines, and joins the survivors with single spaces — so the result
contains no newline — but a line consisting only of punctuation is replaced
by an *empty* line that stays in the join, leaving a doubled space where it
stood (demonstrated by the concrete paragraph, which exercises every
clause). -/
theorem C6_sanitizer_amended :
    (∀ p : List Char,
        ((splitlines p).any fun l => l.contains '|') = false →
        '\n' ∉ cleanParagraph p) ∧
      cleanParagraph (str "x\nx\n //c\nTODO: t\n.\ny") = str "x  y" := by
  constructor
  · intro p htab hmem
    simp only [cleanParagraph, htab, Bool.false_eq_true, if_false] at hmem
    rcases mem_joinSep _ hmem with hsep | ⟨l, hl, hcl⟩
    · simp at hsep
    · have hl3 := (List.mem_filter.mp hl).1
      rcases List.mem_map.mp hl3 with ⟨l0, hl0, rfl⟩
      by_cases ho : isOrphanPunct l0
      · rw [if_pos ho] at hcl
        simp at hcl
      · rw [if_neg ho] at hcl
        have hl2 := (List.mem_filter.mp hl0).1
        rcases List.mem_map.mp hl2 with ⟨l00, hl00, rfl⟩
        exact splitlines_no_nl p l00 (mem_of_dedupKeepFirst _ _ hl00)
          (mem_pyStrip hcl)
  · decide

/-- Witness for the universal part of `C6_sanitizer_amended` at the
paragraph `"a\nb"`. -/
theorem C6_witness : '\n' ∉ cleanParagraph (str "a\nb") :=
  C6_sanitizer_amended.1 (str "a\nb") (by decide)

/-! ## C7: table paragraphs -/

/-- C7 (counterexample): a table paragraph ending in a newline is *not*
returned verbatim — `splitlines` drops the trailing line break and the
rejoin does not restore it. -/
theorem C7_counterexample :
    cleanParagraph (str "| a |\n") = str "| a |" ∧
      cleanParagraph (str "| a |\n") ≠ str "| a |\n" := by
  decide

/-- C7 (amended): a paragraph with a `|` on some line is returned as its
lines rejoined with single newlines; this is the identity whenever the
paragraph does not end with a newline (so line content and internal breaks
are always preserved and the paragraph is never reflowed, but a trailing
newline is dropped).  The spec's concrete table example, which has no
trailing newline, passes through `preprocess_content` unchanged. -/
theorem C7_table_amended :
    (∀ p : List Char,
        ((splitlines p).any fun l => l.contains '|') = true →
        p.getLast? ≠ some '\n' →
        cleanParagraph p = p) ∧
      preprocess_content (str "| a | b |\n| 1 | 2 |") =
        [str "| a | b |\n| 1 | 2 |"] := by
  constructor
  · intro p htab hlast
    simp only [cleanParagraph, htab, if_true]
    cases p with
    | nil => simp [splitlines, joinNl, joinSep]
    | cons c rest =>
      have hs : splitlines (c :: rest) = splitlinesGo [] (c :: rest) := rfl
      unfold joinNl
      rw [hs, joinSep_splitlinesGo (c :: rest) [] hlast]
      simp
  · decide

/-- Witness for the universal part of `C7_table_amended` at the spec's
table paragraph. -/
theorem C7_witness :
    cleanParagraph (str "| a | b |\n| 1 | 2 |") = str "| a | b |\n| 1 | 2 |" :=
  C7_table_amended.1 (str "| a | b |\n| 1 | 2 |") (by decide) (by decide)

/-! ## Character provenance through the trimmer's canonicalisation passes -/

theorem mem_pySplitSepGo {sep : List Char} {c : Char} :
    ∀ (s : List Char) (skip : Nat) (acc x : List Char),
      x ∈ pySplitSepGo sep skip acc s → c ∈ x → c ∈ acc ∨ c ∈ s := by
  intro s
  induction s with
  | nil =>
    intro skip acc x hx hc
    cases skip with
    | zero =>
      simp only [pySplitSepGo, List.mem_singleton] at hx
      subst hx
      exact Or.inl (List.mem_reverse.mp hc)
    | succ n =>
      simp only [pySplitSepGo, List.mem_singleton] at hx
      subst hx
      exact Or.inl (List.mem_reverse.mp hc)
  | cons c0 rest ih =>
    intro skip acc x hx hc
    cases skip with
    | succ n =>
      simp only [pySplitSepGo] at hx
      rcases ih n acc x hx hc with h | h
      · exact Or.inl h
      · exact Or.inr (List.mem_cons_of_mem _ h)
    | zero =>
      by_cases hp : sep.isPrefixOf (c0 :: rest)
      · simp only [pySplitSepGo, if_pos hp, List.mem_cons] at hx
        rcases hx with rfl | hx
        · exact Or.inl (List.mem_reverse.mp hc)
        · rcases ih _ [] x hx hc with h | h
          · simp at h
          · exact Or.inr (List.mem_cons_of_mem _ h)
      · simp only [pySplitSepGo, if_neg hp] at hx
        rcases ih 0 (c0 :: acc) x hx hc with h | h
        · rcases List.mem_cons.mp h with rfl | h
          · exact Or.inr (List.mem_cons_self _ _)
          · exact Or.inl h
        · exact Or.inr (List.mem_cons_of_mem _ h)

/-- Characters of `renderGroup run` come from `run` or are `[`, `]`, ` `. -/
theorem mem_renderGroup {c : Char} {run : List Char}
    (h : c ∈ renderGroup run) : c ∈ run ∨ c = '[' ∨ c = ']' ∨ c = ' ' := by
  unfold renderGroup joinSpace at h
  rcases mem_joinSep _ h with hsep | ⟨l, hl, hcl⟩
  · simp only [List.mem_singleton] at hsep
    exact Or.inr (Or.inr (Or.inr hsep))
  · rcases List.mem_map.mp hl with ⟨n, hn, rfl⟩
    rcases List.mem_cons.mp hcl with rfl | hcl'
    · exact Or.inr (Or.inl rfl)
    · rcases List.mem_append.mp hcl' with hcn | hcr
      · rcases mem_pySplitSepGo run 0 [] n hn hcn with h' | h'
        · simp at h'
        · exact Or.inl h'
      · simp only [List.mem_singleton] at hcr
        exact Or.inr (Or.inr (Or.inl hcr))

theorem mem_splitGroupsGo {c : Char} :
    ∀ (s : List Char) (st : Option (List Char)) (out : List Char),
      c ∈ splitGroupsGo st out s →
      c ∈ out ∨ (∃ run, st = some run ∧ c ∈ run) ∨ c ∈ s ∨
        c = '[' ∨ c = ']' ∨ c = ' ' := by
  intro s
  induction s with
  | nil =>
    intro st out h
    cases st with
    | none =>
      simp only [splitGroupsGo] at h
      exact Or.inl (List.mem_reverse.mp h)
    | some run =>
      simp only [splitGroupsGo, List.mem_append, List.mem_cons,
        List.mem_reverse] at h
      rcases h with h | h | h
      · exact Or.inl h
      · exact Or.inr (Or.inr (Or.inr (Or.inl h)))
      · exact Or.inr (Or.inl ⟨run, rfl, h⟩)
  | cons c0 rest ih =>
    intro st out h
    cases st with
    | none =>
      by_cases h0 : c0 = '['
      · subst h0
        rw [show splitGroupsGo none out ('[' :: rest) =
            splitGroupsGo (some []) out rest from by simp [splitGroupsGo]] at h
        rcases ih (some []) out h with h | ⟨run, hrun, hc⟩ | h | h
        · exact Or.inl h
        · rw [Option.some.injEq] at hrun
          subst hrun
          simp at hc
        · exact Or.inr (Or.inr (Or.inl (List.mem_cons_of_mem _ h)))
        · exact Or.inr (Or.inr (Or.inr h))
      · rw [show splitGroupsGo none out (c0 :: rest) =
            splitGroupsGo none (c0 :: out) rest from by simp [splitGroupsGo, h0]] at h
        rcases ih none (c0 :: out) h with h | ⟨run, hrun, hc⟩ | h | h
        · rcases List.mem_cons.mp h with rfl | h
          · exact Or.inr (Or.inr (Or.inl (List.mem_cons_self _ _)))
          · exact Or.inl h
        · exact absurd hrun (by simp)
        · exact Or.inr (Or.inr (Or.inl (List.mem_cons_of_mem _ h)))
        · exact Or.inr (Or.inr (Or.inr h))
    | some run =>
      by_cases hg : isGroupChar c0
      · rw [show splitGroupsGo (some run) out (c0 :: rest) =
            splitGroupsGo (some (c0 :: run)) out rest from by
          simp [splitGroupsGo, hg]] at h
        rcases ih _ _ h with h | ⟨run', hrun, hc⟩ | h | h
        · exact Or.inl h
        · rw [Option.some.injEq] at hrun
          subst hrun
          rcases List.mem_cons.mp hc with rfl | hc
          · exact Or.inr (Or.inr (Or.inl (List.mem_cons_self _ _)))
          · exact Or.inr (Or.inl ⟨run, rfl, hc⟩)
        · exact Or.inr (Or.inr (Or.inl (List.mem_cons_of_mem _ h)))
        · exact Or.inr (Or.inr (Or.inr h))
      · by_cases hcl : c0 = ']' ∧ run ≠ []
        · obtain ⟨h1, h2⟩ := hcl
          subst h1
          have hrw : splitGroupsGo (some run) out (']' :: rest) =
              splitGroupsGo none ((renderGroup run.reverse).reverse ++ out) rest := by
            have hg' : isGroupChar ']' = false := by decide
            simp [splitGroupsGo, hg', h2]
          rw [hrw] at h
          rcases ih _ _ h with h | ⟨run', hrun, hc⟩ | h | h
          · rcases List.mem_append.mp h with h | h
            · rcases mem_renderGroup (List.mem_reverse.mp h) with h' | h' | h' | h'
              · exact Or.inr (Or.inl ⟨run, rfl, List.mem_reverse.mp h'⟩)
              · exact Or.inr (Or.inr (Or.inr (Or.inl h')))
              · exact Or.inr (Or.inr (Or.inr (Or.inr (Or.inl h'))))
              · exact Or.inr (Or.inr (Or.inr (Or.inr (Or.inr h'))))
            · exact Or.inl h
          · exact absurd hrun (by simp)
          · exact Or.inr (Or.inr (Or.inl (List.mem_cons_of_mem _ h)))
          · exact Or.inr (Or.inr (Or.inr h))
        · by_cases h0 : c0 = '['
          · have hrw : splitGroupsGo (some run) out (c0 :: rest) =
                splitGroupsGo (some []) (run ++ '[' :: out) rest := by
              subst h0
              simp [splitGroupsGo, hg, hcl]
            rw [hrw] at h
            rcases ih _ _ h with h | ⟨run', hrun, hc⟩ | h | h
            · rcases List.mem_append.mp h with h | h
              · exact Or.inr (Or.inl ⟨run, rfl, h⟩)
              · rcases List.mem_cons.mp h with rfl | h
                · exact Or.inr (Or.inr (Or.inr (Or.inl rfl)))
                · exact Or.inl h
            · rw [Option.some.injEq] at hrun
              subst hrun
              simp at hc
            · exact Or.inr (Or.inr (Or.inl (List.mem_cons_of_mem _ h)))
            · exact Or.inr (Or.inr (Or.inr h))
          · have hrw : splitGroupsGo (some run) out (c0 :: rest) =
                splitGroupsGo none (c0 :: (run ++ '[' :: out)) rest := by
              simp [splitGroupsGo, hg, hcl, h0]
            rw [hrw] at h
            rcases ih _ _ h with h | ⟨run', hrun, hc⟩ | h | h
            · rcases List.mem_cons.mp h with rfl | h
              · exact Or.inr (Or.inr (Or.inl (List.mem_cons_self _ _)))
              · rcases List.mem_append.mp h with h | h
                · exact Or.inr (Or.inl ⟨run, rfl, h⟩)
                · rcases List.mem_cons.mp h with rfl | h
                  · exact Or.inr (Or.inr (Or.inr (Or.inl rfl)))
                  · exact Or.inl h
            · exact absurd hrun (by simp)
            · exact Or.inr (Or.inr (Or.inl (List.mem_cons_of_mem _ h)))
            · exact Or.inr (Or.inr (Or.inr h))

/-- Characters of `splitGroups s` come from `s` or are `[`, `]`, ` `. -/
theorem mem_splitGroups {c : Char} {s : List Char}
    (h : c ∈ splitGroups s) : c ∈ s ∨ c = '[' ∨ c = ']' ∨ c = ' ' := by
  rcases mem_splitGroupsGo s none [] h with h | ⟨run, hrun, _⟩ | h | h
  · simp at h
  · exact absurd hrun (by simp)
  · exact Or.inl h
  · exact Or.inr h

theorem mem_dedupRender {c : Char} {toks : List (List Char)}
    (h : c ∈ dedupRender toks) : ∃ t ∈ toks, c ∈ t := by
  unfold dedupRender at h
  rw [List.mem_flatten] at h
  obtain ⟨t, ht, hc⟩ := h
  have ht' : t ∈ dedupKeepFirst [] toks :=
    ((List.perm_insertionSort _ _).mem_iff).mp ht
  exact ⟨t, mem_of_dedupKeepFirst _ _ ht', hc⟩

theorem mem_dedupAdjGo {c : Char} :
    ∀ (s : List Char) (pToks : List (List Char)) (dstate : Option (List Char))
      (out : List Char), c ∈ dedupAdjGo pToks dstate out s →
      c ∈ out ∨ (∃ t ∈ pToks, c ∈ t) ∨
        (∃ digs, dstate = some digs ∧ c ∈ digs) ∨ c ∈ s ∨ c = '[' ∨ c = ']' := by
  intro s
  induction s with
  | nil =>
    intro pToks dstate out h
    cases dstate with
    | none =>
      cases pToks with
      | nil =>
        simp only [dedupAdjGo] at h
        exact Or.inl (List.mem_reverse.mp h)
      | cons p ps =>
        simp only [dedupAdjGo, List.mem_append, List.mem_reverse] at h
        rcases h with h | h
        · exact Or.inl h
        · exact Or.inr (Or.inl (mem_dedupRender h))
    | some digs =>
      simp only [dedupAdjGo, List.mem_append, List.mem_cons,
        List.mem_reverse] at h
      rcases h with (h | h) | h | h
      · exact Or.inl h
      · exact Or.inr (Or.inl (mem_dedupRender h))
      · exact Or.inr (Or.inr (Or.inr (Or.inr (Or.inl h))))
      · exact Or.inr (Or.inr (Or.inl ⟨digs, rfl, h⟩))
  | cons c0 rest ih =>
    intro pToks dstate out h
    cases dstate with
    | none =>
      by_cases h0 : c0 = '['
      · subst h0
        have hrw : ∀ P, dedupAdjGo P none out ('[' :: rest) =
            dedupAdjGo P (some []) out rest := by
          intro P
          cases P with
          | nil => simp [dedupAdjGo]
          | cons p ps => simp [dedupAdjGo]
        rw [hrw] at h
        rcases ih pToks (some []) out h with h | h | ⟨digs, hdigs, hc⟩ | h | h | h
        · exact Or.inl h
        · exact Or.inr (Or.inl h)
        · rw [Option.some.injEq] at hdigs
          subst hdigs
          simp at hc
        · exact Or.inr (Or.inr (Or.inr (Or.inl (List.mem_cons_of_mem _ h))))
        · exact Or.inr (Or.inr (Or.inr (Or.inr (Or.inl h))))
        · exact Or.inr (Or.inr (Or.inr (Or.inr (Or.inr h))))
      · cases pToks with
        | nil =>
          rw [show dedupAdjGo [] none out (c0 :: rest) =
              dedupAdjGo [] none (c0 :: out) rest from by
            simp [dedupAdjGo, h0]] at h
          rcases ih [] none (c0 :: out) h with h | h | ⟨digs, hdigs, hc⟩ | h | h | h
          · rcases List.mem_cons.mp h with rfl | h
            · exact Or.inr (Or.inr (Or.inr (Or.inl (List.mem_cons_self _ _))))
            · exact Or.inl h
          · simp at h
          · exact absurd hdigs (by simp)
          · exact Or.inr (Or.inr (Or.inr (Or.inl (List.mem_cons_of_mem _ h))))
          · exact Or.inr (Or.inr (Or.inr (Or.inr (Or.inl h))))
          · exact Or.inr (Or.inr (Or.inr (Or.inr (Or.inr h))))
        | cons p ps =>
          rw [show dedupAdjGo (p :: ps) none out (c0 :: rest) =
              dedupAdjGo [] none
                (c0 :: ((dedupRender (p :: ps)).reverse ++ out)) rest from by
            simp [dedupAdjGo, h0]] at h
          rcases ih [] none _ h with h | h | ⟨digs, hdigs, hc⟩ | h | h | h
          · rcases List.mem_cons.mp h with rfl | h
            · exact Or.inr (Or.inr (Or.inr (Or.inl (List.mem_cons_self _ _))))
            · rcases List.mem_append.mp h with h | h
              · exact Or.inr (Or.inl (mem_dedupRender (List.mem_reverse.mp h)))
              · exact Or.inl h
          · simp at h
          · exact absurd hdigs (by simp)
          · exact Or.inr (Or.inr (Or.inr (Or.inl (List.mem_cons_of_mem _ h))))
          · exact Or.inr (Or.inr (Or.inr (Or.inr (Or.inl h))))
          · exact Or.inr (Or.inr (Or.inr (Or.inr (Or.inr h))))
    | some digs =>
      by_cases hd : c0.isDigit
      · rw [show dedupAdjGo pToks (some digs) out (c0 :: rest) =
            dedupAdjGo pToks (some (c0 :: digs)) out rest from by
          simp [dedupAdjGo, hd]] at h
        rcases ih pToks (some (c0 :: digs)) out h with h | h | ⟨digs', hdigs, hc⟩ | h | h | h
        · exact Or.inl h
        · exact Or.inr (Or.inl h)
        · rw [Option.some.injEq] at hdigs
          subst hdigs
          rcases List.mem_cons.mp hc with rfl | hc
          · exact Or.inr (Or.inr (Or.inr (Or.inl (List.mem_cons_self _ _))))
          · exact Or.inr (Or.inr (Or.inl ⟨digs, rfl, hc⟩))
        · exact Or.inr (Or.inr (Or.inr (Or.inl (List.mem_cons_of_mem _ h))))
        · exact Or.inr (Or.inr (Or.inr (Or.inr (Or.inl h))))
        · exact Or.inr (Or.inr (Or.inr (Or.inr (Or.inr h))))
      · by_cases hcl : c0 = ']' ∧ digs ≠ []
        · obtain ⟨h1, h2⟩ := hcl
          subst h1
          rw [show dedupAdjGo pToks (some digs) out (']' :: rest) =
              dedupAdjGo (pToks ++ ['[' :: (digs.reverse ++ [']'])]) none out rest from by
            simp [dedupAdjGo, hd, h2]] at h
          rcases ih _ none out h with h | ⟨t, ht, hc⟩ | ⟨digs', hdigs, hc⟩ | h | h | h
          · exact Or.inl h
          · rcases List.mem_append.mp ht with ht | ht
            · exact Or.inr (Or.inl ⟨t, ht, hc⟩)
            · rw [List.mem_singleton] at ht
              subst ht
              rcases List.mem_cons.mp hc with rfl | hc
              · exact Or.inr (Or.inr (Or.inr (Or.inr (Or.inl rfl))))
              · rcases List.mem_append.mp hc with hc | hc
                · exact Or.inr (Or.inr (Or.inl ⟨digs, rfl, List.mem_reverse.mp hc⟩))
                · rw [List.mem_singleton] at hc
                  subst hc
                  exact Or.inr (Or.inr (Or.inr (Or.inr (Or.inr rfl))))
          · exact absurd hdigs (by simp)
          · exact Or.inr (Or.inr (Or.inr (Or.inl (List.mem_cons_of_mem _ h))))
          · exact Or.inr (Or.inr (Or.inr (Or.inr (Or.inl h))))
          · exact Or.inr (Or.inr (Or.inr (Or.inr (Or.inr h))))
        · by_cases h0 : c0 = '['
          · subst h0
            rw [show dedupAdjGo pToks (some digs) out ('[' :: rest) =
                dedupAdjGo [] (some [])
                  (digs ++ '[' :: ((dedupRender pToks).reverse ++ out)) rest from by
              simp [dedupAdjGo, hd, hcl]] at h
            rcases ih [] (some []) _ h with h | h | ⟨digs', hdigs, hc⟩ | h | h | h
            · rcases List.mem_append.mp h with h | h
              · exact Or.inr (Or.inr (Or.inl ⟨digs, rfl, h⟩))
              · rcases List.mem_cons.mp h with rfl | h
                · exact Or.inr (Or.inr (Or.inr (Or.inr (Or.inl rfl))))
                · rcases List.mem_append.mp h with h | h
                  · exact Or.inr (Or.inl (mem_dedupRender (List.mem_reverse.mp h)))
                  · exact Or.inl h
            · simp at h
            · rw [Option.some.injEq] at hdigs
              subst hdigs
              simp at hc
            · exact Or.inr (Or.inr (Or.inr (Or.inl (List.mem_cons_of_mem _ h))))
            · exact Or.inr (Or.inr (Or.inr (Or.inr (Or.inl h))))
            · exact Or.inr (Or.inr (Or.inr (Or.inr (Or.inr h))))
          · rw [show dedupAdjGo pToks (some digs) out (c0 :: rest) =
                dedupAdjGo [] none
                  (c0 :: (digs ++ '[' :: ((dedupRender pToks).reverse ++ out))) rest from by
              simp [dedupAdjGo, hd, hcl, h0]] at h
            rcases ih [] none _ h with h | h | ⟨digs', hdigs, hc⟩ | h | h | h
            · rcases List.mem_cons.mp h with rfl | h
              · exact Or.inr (Or.inr (Or.inr (Or.inl (List.mem_cons_self _ _))))
              · rcases List.mem_append.mp h with h | h
                · exact Or.inr (Or.inr (Or.inl ⟨digs, rfl, h⟩))
                · rcases List.mem_cons.mp h with rfl | h
                  · exact Or.inr (Or.inr (Or.inr (Or.inr (Or.inl rfl))))
                  · rcases List.mem_append.mp h with h | h
                    · exact Or.inr (Or.inl (mem_dedupRender (List.mem_reverse.mp h)))
                    · exact Or.inl h
            · simp at h
            · exact absurd hdigs (by simp)
            · exact Or.inr (Or.inr (Or.inr (Or.inl (List.mem_cons_of_mem _ h))))
            · exact Or.inr (Or.inr (Or.inr (Or.inr (Or.inl h))))
            · exact Or.inr (Or.inr (Or.inr (Or.inr (Or.inr h))))

/-- Characters of `dedupAdjacent s` come from `s` or are `[`, `]`. -/
theorem mem_dedupAdjacent {c : Char} {s : List Char}
    (h : c ∈ dedupAdjacent s) : c ∈ s ∨ c = '[' ∨ c = ']' := by
  rcases mem_dedupAdjGo s [] none [] h with h | h | ⟨digs, hdigs, _⟩ | h | h | h
  · simp at h
  · simp at h
  · exact absurd hdigs (by simp)
  · exact Or.inl h
  · exact Or.inr (Or.inl h)
  · exact Or.inr (Or.inr h)

/-! ## C3: behaviour on terminator-free text -/

theorem eosGo_s0_no_eos : ∀ s : List Char, (∀ c ∈ s, isEosChar c = false) →
    ∀ (pre : List Char) (best : Option (List Char)),
      eosGo .s0 pre best s = best := by
  intro s
  induction s with
  | nil => intro _ pre best; rfl
  | cons c0 rest ih =>
    intro h pre best
    have h0 : isEosChar c0 = false := h c0 (List.mem_cons_self _ _)
    rw [show eosGo .s0 pre best (c0 :: rest) =
        eosGo .s0 (c0 :: pre) best rest from by simp [eosGo, h0]]
    exact ih (fun c hc => h c (List.mem_cons_of_mem _ hc)) _ _

/-- C3 (counterexample): on input with no sentence terminator the function
returns its input (canonicalised), not the empty string: `"hello"` maps to
`"hello"`, which is nonempty. -/
theorem C3_counterexample :
    remove_uncompleted_sentences_with_citations (str "hello") = str "hello" ∧
      str "hello" ≠ ([] : List Char) := by
  decide

/-- C3 (amended): on every input containing no `.`, `!` or `?`, the
eos-pattern never matches and the function returns the input with only the
two citation-canonicalisation passes applied (group splitting and adjacent
deduplication) — not the empty string. -/
theorem C3_no_terminator_keeps_text :
    ∀ t : List Char, (∀ c ∈ t, isEosChar c = false) →
      remove_uncompleted_sentences_with_citations t =
        dedupAdjacent (splitGroups t) := by
  intro t ht
  have ht2 : ∀ c ∈ dedupAdjacent (splitGroups t), isEosChar c = false := by
    intro c hc
    rcases mem_dedupAdjacent hc with h | rfl | rfl
    · rcases mem_splitGroups h with h' | rfl | rfl | rfl
      · exact ht c h'
      · decide
      · decide
      · decide
    · decide
    · decide
  have hnone : lastEosPrefix (dedupAdjacent (splitGroups t)) = none :=
    eosGo_s0_no_eos _ ht2 [] none
  simp [remove_uncompleted_sentences_with_citations, hnone]

/-- Witness for `C3_no_terminator_keeps_text` at the terminator-free input
`"hi there"`. -/
theorem C3_witness :
    remove_uncompleted_sentences_with_citations (str "hi there") =
      dedupAdjacent (splitGroups (str "hi there")) :=
  C3_no_terminator_keeps_text (str "hi there") (by decide)

/-! ## Decimal rendering: arithmetic facts -/

theorem natCharsAux_append : ∀ (fuel n : Nat) (acc : List Char),
    natCharsAux fuel n acc = natCharsAux fuel n [] ++ acc := by
  intro fuel
  induction fuel with
  | zero => intro n acc; simp [natCharsAux]
  | succ f ih =>
    intro n acc
    by_cases h10 : n < 10
    · simp [natCharsAux, h10]
    · simp only [natCharsAux, if_neg h10]
      rw [ih (n / 10) (Nat.digitChar (n % 10) :: acc),
        ih (n / 10) [Nat.digitChar (n % 10)]]
      simp

theorem natCharsAux_fuel : ∀ (n fuel fuel' : Nat) (acc : List Char),
    n < fuel → n < fuel' →
    natCharsAux fuel n acc = natCharsAux fuel' n acc := by
  intro n
  induction n using Nat.strong_induction_on with
  | _ n ih =>
    intro fuel fuel' acc h1 h2
    cases fuel with
    | zero => omega
    | succ f =>
      cases fuel' with
      | zero => omega
      | succ f' =>
        by_cases h10 : n < 10
        · simp [natCharsAux, h10]
        · simp only [natCharsAux, if_neg h10]
          have hdiv : n / 10 < n := Nat.div_lt_self (by omega) (by omega)
          exact ih (n / 10) hdiv f f' _ (by omega) (by omega)

theorem natChars_lt {n : Nat} (h : n < 10) :
    natChars n = [Nat.digitChar n] := by
  simp [natChars, natCharsAux, h]

theorem natChars_ge {n : Nat} (h : 10 ≤ n) :
    natChars n = natChars (n / 10) ++ [Nat.digitChar (n % 10)] := by
  have h10 : ¬ n < 10 := by omega
  have hdiv : n / 10 < n := Nat.div_lt_self (by omega) (by omega)
  show natCharsAux (n + 1) n [] = _
  rw [show natCharsAux (n + 1) n [] =
      natCharsAux n (n / 10) [Nat.digitChar (n % 10)] from by
    simp [natCharsAux, h10]]
  rw [natCharsAux_append]
  rw [show natCharsAux n (n / 10) [] = natCharsAux (n / 10 + 1) (n / 10) [] from
    natCharsAux_fuel (n / 10) n (n / 10 + 1) [] (by omega) (by omega)]
  rfl

theorem digitChar_isDigit {m : Nat} (h : m < 10) :
    (Nat.digitChar m).isDigit = true := by
  interval_cases m <;> decide

theorem digitChar_toNat48 {m : Nat} (h : m < 10) :
    (Nat.digitChar m).toNat = 48 + m := by
  interval_cases m <;> decide

theorem natChars_all_digit : ∀ n : Nat, ∀ c ∈ natChars n, c.isDigit = true := by
  intro n
  induction n using Nat.strong_induction_on with
  | _ n ih =>
    intro c hc
    by_cases h10 : n < 10
    · rw [natChars_lt h10, List.mem_singleton] at hc
      subst hc
      exact digitChar_isDigit h10
    · rw [natChars_ge (by omega)] at hc
      rcases List.mem_append.mp hc with h | h
      · exact ih (n / 10) (Nat.div_lt_self (by omega) (by omega)) c h
      · rw [List.mem_singleton] at h
        subst h
        exact digitChar_isDigit (Nat.mod_lt _ (by omega))

theorem natChars_ne_nil (n : Nat) : natChars n ≠ [] := by
  by_cases h10 : n < 10
  · rw [natChars_lt h10]; simp
  · rw [natChars_ge (by omega)]; simp

theorem digitsVal_append_single (ds : List Char) (c : Char) :
    digitsVal (ds ++ [c]) = 10 * digitsVal ds + (c.toNat - 48) := by
  simp [digitsVal, List.foldl_append]

theorem digitsVal_natChars : ∀ n : Nat, digitsVal (natChars n) = n := by
  intro n
  induction n using Nat.strong_induction_on with
  | _ n ih =>
    by_cases h10 : n < 10
    · rw [natChars_lt h10]
      simp [digitsVal, digitChar_toNat48 h10]
    · rw [natChars_ge (by omega), digitsVal_append_single,
        ih (n / 10) (Nat.div_lt_self (by omega) (by omega)),
        digitChar_toNat48 (Nat.mod_lt _ (by omega))]
      omega

theorem isDigit_not_special {c : Char} (h : c.isDigit = true) :
    c ≠ '[' ∧ c ≠ ']' ∧ c ≠ '_' := by
  refine ⟨?_, ?_, ?_⟩ <;> intro hrfl <;> subst hrfl <;> exact absurd h (by decide)

theorem pySpace_ne_lbracket {c : Char} (h : isPySpace c = true) : c ≠ '[' := by
  intro hrfl
  subst hrfl
  exact absurd h (by decide)

/-- The middle of a citation token strips back to its digits. -/
theorem pyStripWhile_citTk (k : Nat) :
    pyStripWhile (fun c => c = '[' || c = ']') (citTk k) = natChars k := by
  unfold pyStripWhile citTk
  have hdw : List.dropWhile (fun c => c = '[' || c = ']')
      ('[' :: (natChars k ++ [']'])) = natChars k ++ [']'] := by
    rw [List.dropWhile_cons]
    simp only [decide_True, Bool.true_or, if_true]
    cases hk : natChars k with
    | nil => exact absurd hk (natChars_ne_nil k)
    | cons d ds =>
      have hd : d.isDigit = true := by
        have := natChars_all_digit k d
        rw [hk] at this
        exact this (List.mem_cons_self _ _)
      obtain ⟨hd1, hd2, _⟩ := isDigit_not_special hd
      rw [List.cons_append, List.dropWhile_cons]
      simp [hd1, hd2]
  rw [hdw]
  rw [show (natChars k ++ [']']).reverse = ']' :: (natChars k).reverse from by
    simp]
  rw [List.dropWhile_cons]
  simp only [decide_True, Bool.or_true, if_true]
  cases hk : (natChars k).reverse with
  | nil =>
    have : natChars k = [] := by simpa using congrArg List.reverse hk
    exact absurd this (natChars_ne_nil k)
  | cons r rs =>
    have hr : r.isDigit = true := by
      have hmem : r ∈ (natChars k).reverse := by rw [hk]; simp
      exact natChars_all_digit k r (List.mem_reverse.mp hmem)
    obtain ⟨hr1, hr2, _⟩ := isDigit_not_special hr
    rw [List.dropWhile_cons]
    simp only [hr1, hr2, decide_False, Bool.or_self, if_false]
    rw [← hk]
    simp

/-- `int(x.strip("[]"))` recovers the index of a canonical token. -/
theorem tokVal_citTk (k : Nat) : tokVal (citTk k) = k := by
  rw [tokVal, pyStripWhile_citTk, digitsVal_natChars]

/-- Canonical citation tokens are injective in the index. -/
theorem citTk_inj {a b : Nat} (h : citTk a = citTk b) : a = b := by
  have := congrArg tokVal h
  rwa [tokVal_citTk, tokVal_citTk] at this

/-! ## C10: adjacent-run deduplication -/

theorem dedupKeepFirst_map_citTk : ∀ (ks seen : List Nat),
    dedupKeepFirst (seen.map citTk) (ks.map citTk) =
      (dedupKeepFirst seen ks).map citTk := by
  intro ks
  induction ks with
  | nil => intro seen; simp [dedupKeepFirst]
  | cons k ks' ih =>
    intro seen
    by_cases hmem : k ∈ seen
    · have hmem' : citTk k ∈ seen.map citTk := List.mem_map_of_mem _ hmem
      simp only [List.map_cons, dedupKeepFirst, if_pos hmem', if_pos hmem]
      exact ih seen
    · have hmem' : citTk k ∉ seen.map citTk := by
        intro hc
        rcases List.mem_map.mp hc with ⟨x, hx, hfx⟩
        rw [citTk_inj hfx] at hx
        exact hmem hx
      simp only [List.map_cons, dedupKeepFirst, if_neg hmem', if_neg hmem]
      rw [show citTk k :: seen.map citTk = (k :: seen).map citTk from rfl,
        ih (k :: seen)]

theorem orderedInsert_map_citTk (k : Nat) : ∀ l2 : List Nat,
    List.orderedInsert (fun a b => tokVal a ≤ tokVal b) (citTk k) (l2.map citTk) =
      (List.orderedInsert (fun a b => a ≤ b) k l2).map citTk := by
  intro l2
  induction l2 with
  | nil => simp [List.orderedInsert]
  | cons x l2' ih =>
    simp only [List.map_cons, List.orderedInsert, tokVal_citTk]
    by_cases hle : k ≤ x
    · simp [hle]
    · simp only [hle, if_false]
      rw [ih]
      rfl

theorem insertionSort_map_citTk : ∀ l : List Nat,
    List.insertionSort (fun a b => tokVal a ≤ tokVal b) (l.map citTk) =
      (List.insertionSort (fun a b => a ≤ b) l).map citTk := by
  intro l
  induction l with
  | nil => simp [List.insertionSort]
  | cons x l' ih =>
    simp only [List.map_cons, List.insertionSort, ih, orderedInsert_map_citTk]

/-- `deduplicate_group` on a run of canonical tokens is first-occurrence
deduplication followed by an ascending sort of the indices. -/
theorem dedupRender_map_citTk (ks : List Nat) :
    dedupRender (ks.map citTk) = ((sortedDedupNats ks).map citTk).flatten := by
  unfold dedupRender sortedDedupNats
  rw [show dedupKeepFirst [] (ks.map citTk) = (dedupKeepFirst [] ks).map citTk from by
    simpa using dedupKeepFirst_map_citTk ks []]
  rw [insertionSort_map_citTk]

theorem dedupRender_single (t : List Char) : dedupRender [t] = t := by
  simp [dedupRender, dedupKeepFirst, List.insertionSort, List.orderedInsert]

theorem dedupAdjGo_digits : ∀ ds : List Char, (∀ c ∈ ds, c.isDigit = true) →
    ∀ (pToks : List (List Char)) (digs out t : List Char),
      dedupAdjGo pToks (some digs) out (ds ++ t) =
        dedupAdjGo pToks (some (ds.reverse ++ digs)) out t := by
  intro ds
  induction ds with
  | nil => intro _ p digs out t; simp
  | cons d ds' ih =>
    intro hd p digs out t
    have hdig : d.isDigit = true := hd d (List.mem_cons_self _ _)
    rw [show dedupAdjGo p (some digs) out (d :: ds' ++ t) =
        dedupAdjGo p (some (d :: digs)) out (ds' ++ t) from by
      simp [dedupAdjGo, hdig]]
    rw [ih (fun c hc => hd c (List.mem_cons_of_mem _ hc)) p (d :: digs) out t]
    simp

theorem dedupAdjGo_token (k : Nat) (pToks : List (List Char)) (out t : List Char) :
    dedupAdjGo pToks (some []) out (natChars k ++ ']' :: t) =
      dedupAdjGo (pToks ++ [citTk k]) none out t := by
  rw [dedupAdjGo_digits (natChars k) (natChars_all_digit k) pToks [] out (']' :: t)]
  have hd : (']' : Char).isDigit = false := by decide
  have hne : (natChars k).reverse ++ [] ≠ [] := by simp [natChars_ne_nil k]
  rw [show dedupAdjGo pToks (some ((natChars k).reverse ++ [])) out (']' :: t) =
      dedupAdjGo (pToks ++ ['[' :: (((natChars k).reverse ++ []).reverse ++ [']'])])
        none out t from by
    simp [dedupAdjGo, hd, hne, natChars_ne_nil k]]
  simp [citTk]

theorem dedupAdjGo_lbracket (pToks : List (List Char)) (out t : List Char) :
    dedupAdjGo pToks none out ('[' :: t) = dedupAdjGo pToks (some []) out t := by
  cases pToks with
  | nil => simp [dedupAdjGo]
  | cons p ps => simp [dedupAdjGo]

theorem dedupAdjGo_plain : ∀ ws : List Char, (∀ c ∈ ws, c ≠ '[') →
    ∀ out t : List Char,
      dedupAdjGo [] none out (ws ++ t) = dedupAdjGo [] none (ws.reverse ++ out) t := by
  intro ws
  induction ws with
  | nil => intro _ out t; simp
  | cons w ws' ih =>
    intro hw out t
    have hwb : ¬ w = '[' := hw w (List.mem_cons_self _ _)
    rw [show dedupAdjGo [] none out (w :: ws' ++ t) =
        dedupAdjGo [] none (w :: out) (ws' ++ t) from by
      simp [dedupAdjGo, hwb]]
    rw [ih (fun c hc => hw c (List.mem_cons_of_mem _ hc)) (w :: out) t]
    simp

theorem dedupAdjGo_run : ∀ (ks : List Nat) (p : List Char) (ps : List (List Char))
    (out : List Char),
    dedupAdjGo (p :: ps) none out ((ks.map citTk).flatten) =
      out.reverse ++ dedupRender ((p :: ps) ++ ks.map citTk) := by
  intro ks
  induction ks with
  | nil => intro p ps out; simp [dedupAdjGo]
  | cons k ks' ih =>
    intro p ps out
    rw [show (((k :: ks').map citTk).flatten) =
        '[' :: (natChars k ++ ']' :: ((ks'.map citTk).flatten)) from by
      simp [citTk]]
    rw [dedupAdjGo_lbracket, dedupAdjGo_token k (p :: ps) out _]
    rw [show (p :: ps) ++ [citTk k] = p :: (ps ++ [citTk k]) from rfl]
    rw [ih p (ps ++ [citTk k]) out]
    simp

/-- C10: (i) an adjacent run of markers collapses to the unique set sorted
ascending by value, e.g. `[3][1][3] → [1][3]`; (ii) two markers separated
by nonempty whitespace are left exactly as written — never merged,
deduplicated or reordered; (iii) group splitting renders `[1, 2, 1]` as the
space-separated `[1] [2] [1]`, whose duplicates the deduplication pass then
leaves in place (also end to end through the trimmer, whose input has no
sentence terminator); (iv) in general, an isolated maximal run of canonical
markers with zero characters between them collapses to the
first-occurrence-deduplicated, value-sorted run. -/
theorem C10_adjacent_dedup :
    dedupAdjacent (str "[3][1][3]") = str "[1][3]" ∧
      (∀ (a b : Nat) (ws : List Char), ws ≠ [] →
        (∀ c ∈ ws, isPySpace c = true) →
        dedupAdjacent (citTk a ++ ws ++ citTk b) = citTk a ++ ws ++ citTk b) ∧
      (splitGroups (str "[1, 2, 1]") = str "[1] [2] [1]" ∧
        dedupAdjacent (str "[1] [2] [1]") = str "[1] [2] [1]" ∧
        remove_uncompleted_sentences_with_citations (str "[1, 2, 1]") =
          str "[1] [2] [1]") ∧
      (∀ ks : List Nat, ks ≠ [] →
        dedupAdjacent ((ks.map citTk).flatten) =
          ((sortedDedupNats ks).map citTk).flatten) := by
  refine ⟨by decide, ?_, by decide, ?_⟩
  · intro a b ws hne hsp
    cases ws with
    | nil => exact absurd rfl hne
    | cons w0 ws' =>
      unfold dedupAdjacent
      rw [show citTk a ++ (w0 :: ws') ++ citTk b =
          '[' :: (natChars a ++ ']' :: ((w0 :: ws') ++ citTk b)) from by
        simp [citTk]]
      rw [dedupAdjGo_lbracket, dedupAdjGo_token a [] [] _]
      have hw0 : ¬ w0 = '[' :=
        pySpace_ne_lbracket (hsp w0 (List.mem_cons_self _ _))
      rw [show dedupAdjGo ([] ++ [citTk a]) none [] ((w0 :: ws') ++ citTk b) =
          dedupAdjGo [] none
            (w0 :: ((dedupRender [citTk a]).reverse ++ [])) (ws' ++ citTk b) from by
        simp [dedupAdjGo, hw0]]
      rw [dedupRender_single]
      rw [dedupAdjGo_plain ws'
        (fun c hc => pySpace_ne_lbracket (hsp c (List.mem_cons_of_mem _ hc))) _ _]
      rw [show (citTk b : List Char) = '[' :: (natChars b ++ ']' :: []) from by
        simp [citTk]]
      rw [dedupAdjGo_lbracket, dedupAdjGo_token b [] _ []]
      rw [show dedupAdjGo ([] ++ [citTk b]) none
          (ws'.reverse ++ (w0 :: ((citTk a).reverse ++ []))) [] =
          (ws'.reverse ++ (w0 :: ((citTk a).reverse ++ []))).reverse ++
            dedupRender [citTk b] from by simp [dedupAdjGo]]
      rw [dedupRender_single]
      simp [citTk]
  · intro ks hne
    cases ks with
    | nil => exact absurd rfl hne
    | cons k ks' =>
      unfold dedupAdjacent
      rw [show (((k :: ks').map citTk).flatten) =
          '[' :: (natChars k ++ ']' :: ((ks'.map citTk).flatten)) from by
        simp [citTk]]
      rw [dedupAdjGo_lbracket, dedupAdjGo_token k [] [] _]
      rw [show ([] ++ [citTk k] : List (List Char)) = [citTk k] from rfl]
      rw [dedupAdjGo_run ks' (citTk k) [] []]
      rw [show ([citTk k] ++ ks'.map citTk : List (List Char)) =
          (k :: ks').map citTk from rfl]
      rw [dedupRender_map_citTk]
      simp

/-- Witness for the universal parts of `C10_adjacent_dedup`: markers
separated by a single space stay put, and the run `[3][1][3]` collapses to
the sorted unique run. -/
theorem C10_witness :
    dedupAdjacent (citTk 3 ++ [' '] ++ citTk 1) = citTk 3 ++ [' '] ++ citTk 1 ∧
      dedupAdjacent ((([3, 1, 3] : List Nat).map citTk).flatten) =
        ((sortedDedupNats [3, 1, 3]).map citTk).flatten :=
  ⟨C10_adjacent_dedup.2.1 3 1 [' '] (by decide) (by decide),
    C10_adjacent_dedup.2.2.2 [3, 1, 3] (by decide)⟩

/-! ## C1: mechanics of `str.replace` -/

theorem replaceAllGo_skip (pat rep : List Char) : ∀ (n : Nat) (s : List Char),
    replaceAllGo pat rep n s = replaceAllGo pat rep 0 (s.drop n) := by
  intro n
  induction n with
  | zero => intro s; rfl
  | succ n' ih =>
    intro s
    cases s with
    | nil => simp [replaceAllGo]
    | cons c rest => simp [replaceAllGo, ih rest]

theorem replaceAll_nil (pat rep : List Char) : replaceAll pat rep [] = [] := by
  by_cases h : pat = [] <;> simp [replaceAll, replaceAllGo, h]

theorem replaceAll_step_match {pat : List Char} (rep : List Char)
    {s : List Char} (hp : pat ≠ []) (h : pat <+: s) :
    replaceAll pat rep s = rep ++ replaceAll pat rep (s.drop pat.length) := by
  cases s with
  | nil =>
    have : pat = [] := List.prefix_nil.mp h
    exact absurd this hp
  | cons c rest =>
    have hpre : pat.isPrefixOf (c :: rest) = true :=
      List.isPrefixOf_iff_prefix.mpr h
    rw [show replaceAll pat rep (c :: rest) = replaceAllGo pat rep 0 (c :: rest) from by
      simp [replaceAll, hp]]
    rw [show replaceAllGo pat rep 0 (c :: rest) =
        rep ++ replaceAllGo pat rep (pat.length - 1) rest from by
      simp [replaceAllGo, hpre]]
    rw [replaceAllGo_skip]
    have hlen : 1 ≤ pat.length := by
      cases pat with
      | nil => exact absurd rfl hp
      | cons a t => simp
    rw [show rest.drop (pat.length - 1) = (c :: rest).drop pat.length from by
      cases hp2 : pat.length with
      | zero => omega
      | succ n => simp [hp2]]
    rw [show replaceAllGo pat rep 0 ((c :: rest).drop pat.length) =
        replaceAll pat rep ((c :: rest).drop pat.length) from by
      simp [replaceAll, hp]]

theorem replaceAll_step_nomatch {pat : List Char} (rep : List Char)
    {c : Char} {rest : List Char} (hp : pat ≠ []) (h : ¬ pat <+: (c :: rest)) :
    replaceAll pat rep (c :: rest) = c :: replaceAll pat rep rest := by
  have hpre : pat.isPrefixOf (c :: rest) = false := by
    rw [← Bool.not_eq_true]
    intro hc
    exact h (List.isPrefixOf_iff_prefix.mp hc)
  simp [replaceAll, hp, replaceAllGo, hpre]

/-- Walk a blocked region: if no match can start inside `xs` (including at
its last character, looking into `ys`), replacement passes `xs` through. -/
theorem replaceAll_walk {pat : List Char} (rep : List Char) (hp : pat ≠ []) :
    ∀ xs ys : List Char,
      (∀ u, u ≠ [] → u <:+ xs → ¬ pat <+: (u ++ ys)) →
      replaceAll pat rep (xs ++ ys) = xs ++ replaceAll pat rep ys := by
  intro xs
  induction xs with
  | nil => intro ys _; simp
  | cons c xs' ih =>
    intro ys hblock
    rw [List.cons_append]
    rw [replaceAll_step_nomatch rep hp (by
      have := hblock (c :: xs') (by simp) (List.suffix_refl _)
      simpa using this)]
    rw [ih ys (fun u hu hsuf => hblock u hu (hsuf.trans (List.suffix_cons c xs')))]
    simp

/-- A fully blocked string is left unchanged. -/
theorem replaceAll_of_blocked {pat : List Char} (rep : List Char) (hp : pat ≠ [])
    {s : List Char} (hblock : ∀ u, u ≠ [] → u <:+ s → ¬ pat <+: u) :
    replaceAll pat rep s = s := by
  have := replaceAll_walk rep hp s [] (by
    intro u hu hsuf
    rw [List.append_nil]
    exact hblock u hu hsuf)
  simpa [replaceAll_nil] using this

/-! ## C1: a prefix/suffix toolkit -/

theorem prefix_of_prefix_append {p u ys : List Char} (h : p <+: u ++ ys)
    (hlen : p.length ≤ u.length) : p <+: u := by
  have h1 : p = (u ++ ys).take p.length := List.prefix_iff_eq_take.mp h
  rw [List.take_append_of_le_length hlen] at h1
  rw [h1]
  exact List.take_prefix _ _

theorem prefix_split {p u ys : List Char} (h : p <+: u ++ ys)
    (hlen : u.length < p.length) : u <+: p ∧ p.drop u.length <+: ys := by
  have hu : u <+: p :=
    List.prefix_of_prefix_length_le (List.prefix_append u ys) h (by omega)
  refine ⟨hu, ?_⟩
  have hup : u ++ p.drop u.length = p := by
    conv_rhs => rw [← List.take_append_drop u.length p]
    congr 1
    exact List.prefix_iff_eq_take.mp hu
  rw [← hup] at h
  exact (List.prefix_append_right_inj u).mp h

theorem suffix_append_cases {u a b : List Char} (h : u <:+ a ++ b) :
    u <:+ b ∨ ∃ u', u' ≠ [] ∧ u' <:+ a ∧ u = u' ++ b := by
  induction a with
  | nil => exact Or.inl (by simpa using h)
  | cons c a' ih =>
    rw [List.cons_append, List.suffix_cons_iff] at h
    rcases h with rfl | h
    · exact Or.inr ⟨c :: a', by simp, List.suffix_refl _, by simp⟩
    · rcases ih h with h' | ⟨u', hne, hsuf, rfl⟩
      · exact Or.inl h'
      · exact Or.inr ⟨u', hne, hsuf.trans (List.suffix_cons c a'), rfl⟩

theorem suffix_eq_drop {u w : List Char} (h : u <:+ w) :
    u = w.drop (w.length - u.length) := by
  obtain ⟨t, rfl⟩ := h
  rw [show (t ++ u).length - u.length = t.length from by simp]
  rw [List.drop_left]

theorem not_prefix_of_head_ne {p0 c : Char} {pt rest : List Char} (hne : p0 ≠ c) :
    ¬ (p0 :: pt) <+: (c :: rest) := by
  intro h
  exact hne (List.cons_prefix_cons.mp h).1

theorem prefix_extend {p s t : List Char} (h : p <+: s) :
    p <+: s ++ t :=
  h.trans (List.prefix_append s t)

theorem append_drop_of_prefix {p s : List Char} (h : p <+: s) :
    p ++ s.drop p.length = s := by
  obtain ⟨t, rfl⟩ := h
  rw [List.drop_left]

/-! ## C1: structure of citation and placeholder tokens -/

theorem citTk_cons (n : Nat) : citTk n = '[' :: (natChars n ++ [']']) := rfl

theorem phTk_decomp (n : Nat) :
    phTk n = str "__PLACEHOLDER_" ++ (natChars n ++ ['_', '_']) := by
  show str "__PLACEHOLDER_" ++ natChars n ++ str "__" = _
  rw [show str "__" = ['_', '_'] from by decide]
  simp

theorem phTk_cons (n : Nat) :
    phTk n = '_' :: ('_' :: (str "PLACEHOLDER_" ++ (natChars n ++ ['_', '_']))) := by
  rw [phTk_decomp]
  rw [show str "__PLACEHOLDER_" = '_' :: '_' :: str "PLACEHOLDER_" from by decide]
  simp

theorem mem_citTk {c : Char} {n : Nat} (h : c ∈ citTk n) :
    c = '[' ∨ c.isDigit = true ∨ c = ']' := by
  rw [citTk_cons] at h
  rcases List.mem_cons.mp h with rfl | h
  · exact Or.inl rfl
  · rcases List.mem_append.mp h with h | h
    · exact Or.inr (Or.inl (natChars_all_digit n c h))
    · rw [List.mem_singleton] at h
      exact Or.inr (Or.inr h)

theorem mem_citTk_ne_underscore {c : Char} {n : Nat} (h : c ∈ citTk n) :
    c ≠ '_' := by
  rcases mem_citTk h with rfl | hd | rfl
  · decide
  · exact (isDigit_not_special hd).2.2
  · decide

theorem mem_phTk_ne_lbracket {c : Char} {n : Nat} (h : c ∈ phTk n) :
    c ≠ '[' := by
  rw [phTk_decomp] at h
  rcases List.mem_append.mp h with h | h
  · exact (by decide : ∀ x ∈ str "__PLACEHOLDER_", x ≠ '[') c h
  · rcases List.mem_append.mp h with h | h
    · exact (isDigit_not_special (natChars_all_digit n c h)).1
    · exact (by decide : ∀ x ∈ (['_', '_'] : List Char), x ≠ '[') c h

theorem natChars_head_digit (n : Nat) :
    ∃ d ds, natChars n = d :: ds ∧ d.isDigit = true := by
  cases hk : natChars n with
  | nil => exact absurd hk (natChars_ne_nil n)
  | cons d ds =>
    refine ⟨d, ds, rfl, ?_⟩
    have := natChars_all_digit n d
    rw [hk] at this
    exact this (List.mem_cons_self _ _)

theorem natChars_injective {a b : Nat} (h : natChars a = natChars b) : a = b := by
  have := congrArg digitsVal h
  rwa [digitsVal_natChars, digitsVal_natChars] at this

theorem num_sep_not_prefix {c : Char} (hc : c.isDigit = false) :
    ∀ d1 d2 : List Char, (∀ x ∈ d1, x.isDigit = true) →
      (∀ x ∈ d2, x.isDigit = true) → d1 ≠ d2 →
      ∀ xs ys : List Char, ¬ (d1 ++ c :: xs) <+: (d2 ++ c :: ys) := by
  intro d1
  induction d1 with
  | nil =>
    intro d2 _ h2 hne xs ys h
    cases d2 with
    | nil => exact hne rfl
    | cons b d2' =>
      have hcb := (List.cons_prefix_cons.mp (by simpa using h)).1
      have hb := h2 b (List.mem_cons_self _ _)
      rw [← hcb] at hb
      rw [hb] at hc
      exact absurd hc (by simp)
  | cons a d1' ih =>
    intro d2 h1 h2 hne xs ys h
    cases d2 with
    | nil =>
      have hac := (List.cons_prefix_cons.mp (by simpa using h)).1
      have ha := h1 a (List.mem_cons_self _ _)
      rw [hac] at ha
      rw [ha] at hc
      exact absurd hc (by simp)
    | cons b d2' =>
      obtain ⟨hab, htail⟩ := List.cons_prefix_cons.mp (by simpa using h)
      subst hab
      exact ih d2' (fun x hx => h1 x (List.mem_cons_of_mem _ hx))
        (fun x hx => h2 x (List.mem_cons_of_mem _ hx))
        (fun he => hne (by rw [he])) xs ys htail

/-- No two distinct keys render to tokens where one token begins the
other's rendering followed by anything. -/
theorem citTk_not_prefix_citTk {k j : Nat} (hkj : k ≠ j) (z : List Char) :
    ¬ citTk k <+: citTk j ++ z := by
  intro h
  rw [citTk_cons, citTk_cons, List.cons_append] at h
  have htail := (List.cons_prefix_cons.mp h).2
  rw [show (natChars j ++ [']']) ++ z = natChars j ++ ']' :: z from by simp] at htail
  rw [show natChars k ++ ([']'] : List Char) = natChars k ++ ']' :: [] from rfl] at htail
  exact num_sep_not_prefix (by decide) (natChars k) (natChars j)
    (natChars_all_digit k) (natChars_all_digit j)
    (fun he => hkj (natChars_injective he)) [] z htail

theorem phTk_not_prefix_phTk {k j : Nat} (hkj : k ≠ j) (z : List Char) :
    ¬ phTk k <+: phTk j ++ z := by
  intro h
  rw [phTk_decomp, phTk_decomp, List.append_assoc] at h
  have htail := (List.prefix_append_right_inj (str "__PLACEHOLDER_")).mp h
  rw [show natChars k ++ (['_', '_'] : List Char) = natChars k ++ '_' :: ['_'] from rfl] at htail
  rw [show (natChars j ++ ['_', '_']) ++ z = natChars j ++ '_' :: ('_' :: z) from by simp] at htail
  exact num_sep_not_prefix (by decide) (natChars k) (natChars j)
    (natChars_all_digit k) (natChars_all_digit j)
    (fun he => hkj (natChars_injective he)) ['_'] ('_' :: z) htail

/-! ## C1: no placeholder text can begin a rendered segment stream -/

theorem placeholder_drop_head {n : Nat} (hn : n < 11) :
    ∃ q0 qt, (str "PLACEHOLDER").drop n = q0 :: qt ∧ q0 ≠ '[' ∧ q0 ≠ '_' := by
  have hlen : (str "PLACEHOLDER").length = 11 := by decide
  have hne : (str "PLACEHOLDER").drop n ≠ [] := by
    intro h
    have h2 := congrArg List.length h
    rw [List.length_drop, hlen] at h2
    simp at h2
    omega
  cases hq : (str "PLACEHOLDER").drop n with
  | nil => exact absurd hq hne
  | cons q0 qt =>
    have hmem : q0 ∈ str "PLACEHOLDER" := by
      have hsuf : (str "PLACEHOLDER").drop n <:+ str "PLACEHOLDER" := List.drop_suffix _ _
      rw [hq] at hsuf
      exact hsuf.sublist.mem (List.mem_cons_self _ _)
    exact ⟨q0, qt, rfl,
      (by decide : ∀ c ∈ str "PLACEHOLDER", c ≠ '[') q0 hmem,
      (by decide : ∀ c ∈ str "PLACEHOLDER", c ≠ '_') q0 hmem⟩

theorem not_prefix_token_headed {q0 : Char} {qt z tok : List Char}
    (htok : (∃ j, tok = citTk j) ∨ (∃ j, tok = phTk j))
    (h0 : q0 ≠ '[') (h1 : q0 ≠ '_') :
    ¬ (q0 :: qt) <+: tok ++ z := by
  rcases htok with ⟨j, rfl⟩ | ⟨j, rfl⟩
  · rw [citTk_cons, List.cons_append]
    exact not_prefix_of_head_ne h0
  · rw [phTk_cons, List.cons_append]
    exact not_prefix_of_head_ne h1

theorem placeholder_not_prefix_render (f : Nat × Nat → List Char) :
    ∀ (T : Toks) (last : List Char),
      (∀ rkv ∈ T, (∃ j, f rkv.2 = citTk j) ∨ (∃ j, f rkv.2 = phTk j)) →
      (∀ rkv ∈ T, Hygienic rkv.1) → Hygienic last →
      ¬ str "PLACEHOLDER" <+: renderToks f T last := by
  intro T
  induction T with
  | nil =>
    intro last _ _ hlast h
    exact hlast h.isInfix
  | cons rkv T' ih =>
    intro last hf hr hlast h
    obtain ⟨raw, kv⟩ := rkv
    simp only [renderToks] at h
    rw [List.append_assoc] at h
    by_cases hlen : (str "PLACEHOLDER").length ≤ raw.length
    · exact hr (raw, kv) (List.mem_cons_self _ _)
        (prefix_of_prefix_append h hlen).isInfix
    · push_neg at hlen
      obtain ⟨_, hq⟩ := prefix_split h hlen
      obtain ⟨q0, qt, hdrop, h0, h1⟩ := placeholder_drop_head
        (show raw.length < 11 from by
          have h11 : (str "PLACEHOLDER").length = 11 := by decide
          omega)
      rw [hdrop] at hq
      exact not_prefix_token_headed (hf (raw, kv) (List.mem_cons_self _ _)) h0 h1 hq

theorem placeholder1_not_prefix_render (f : Nat × Nat → List Char) :
    ∀ (T : Toks) (last : List Char),
      (∀ rkv ∈ T, (∃ j, f rkv.2 = citTk j) ∨ (∃ j, f rkv.2 = phTk j)) →
      (∀ rkv ∈ T, Hygienic rkv.1) → Hygienic last →
      ¬ str "_PLACEHOLDER" <+: renderToks f T last := by
  intro T
  induction T with
  | nil =>
    intro last _ _ hlast h
    have hinf : str "PLACEHOLDER" <:+: str "_PLACEHOLDER" := ⟨['_'], [], by decide⟩
    exact hlast (hinf.trans h.isInfix)
  | cons rkv T' ih =>
    intro last hf hr hlast h
    obtain ⟨raw, kv⟩ := rkv
    simp only [renderToks] at h
    rw [List.append_assoc] at h
    by_cases hlen : (str "_PLACEHOLDER").length ≤ raw.length
    · have hinf : str "PLACEHOLDER" <:+: str "_PLACEHOLDER" := ⟨['_'], [], by decide⟩
      exact hr (raw, kv) (List.mem_cons_self _ _)
        (hinf.trans (prefix_of_prefix_append h hlen).isInfix)
    · push_neg at hlen
      obtain ⟨_, hq⟩ := prefix_split h hlen
      by_cases h0 : raw.length = 0
      · rw [h0, List.drop_zero] at hq
        rcases hf (raw, kv) (List.mem_cons_self _ _) with ⟨j, hj⟩ | ⟨j, hj⟩
        · rw [hj, citTk_cons, List.cons_append,
            show str "_PLACEHOLDER" = '_' :: str "PLACEHOLDER" from by decide] at hq
          exact not_prefix_of_head_ne (by decide) hq
        · rw [hj, phTk_cons, List.cons_append,
            show str "_PLACEHOLDER" = '_' :: str "PLACEHOLDER" from by decide] at hq
          have h2 := (List.cons_prefix_cons.mp hq).2
          rw [show str "PLACEHOLDER" = 'P' :: str "LACEHOLDER" from by decide] at h2
          exact not_prefix_of_head_ne (by decide) h2
      · obtain ⟨n, hn⟩ : ∃ n, raw.length = n + 1 := ⟨raw.length - 1, by omega⟩
        rw [show str "_PLACEHOLDER" = '_' :: str "PLACEHOLDER" from by decide,
          hn, List.drop_succ_cons] at hq
        obtain ⟨q0, qt, hdrop, hq0, hq1⟩ := placeholder_drop_head
          (show n < 11 from by
            have h12 : (str "_PLACEHOLDER").length = 12 := by decide
            omega)
        rw [hdrop] at hq
        exact not_prefix_token_headed (hf (raw, kv) (List.mem_cons_self _ _)) hq0 hq1 hq

/-! ## C1: pass 1 replaces exactly the tokenised citation occurrences -/

theorem citTk_ne_nil (k : Nat) : citTk k ≠ [] := by
  rw [citTk_cons]
  simp

theorem citTk_drop_head {k n : Nat} (h1 : 1 ≤ n) (h2 : n < (citTk k).length) :
    ∃ q0 qt, (citTk k).drop n = q0 :: qt ∧ q0 ≠ '[' ∧ q0 ≠ '_' := by
  obtain ⟨m, rfl⟩ : ∃ m, n = m + 1 := ⟨n - 1, by omega⟩
  rw [citTk_cons, List.drop_succ_cons]
  have hlen : m < (natChars k ++ [']']).length := by
    rw [citTk_cons] at h2
    simp only [List.length_cons] at h2
    omega
  cases hq : (natChars k ++ [']']).drop m with
  | nil =>
    have hl2 := congrArg List.length hq
    rw [List.length_drop] at hl2
    simp only [List.length_nil] at hl2
    omega
  | cons q0 qt =>
    have hmem : q0 ∈ natChars k ++ [']'] := by
      have hsuf := List.drop_suffix m (natChars k ++ [']'])
      rw [hq] at hsuf
      exact hsuf.sublist.mem (List.mem_cons_self _ _)
    refine ⟨q0, qt, rfl, ?_, ?_⟩
    · rcases List.mem_append.mp hmem with hm | hm
      · exact (isDigit_not_special (natChars_all_digit k q0 hm)).1
      · rw [List.mem_singleton] at hm
        subst hm
        decide
    · rcases List.mem_append.mp hmem with hm | hm
      · exact (isDigit_not_special (natChars_all_digit k q0 hm)).2.2
      · rw [List.mem_singleton] at hm
        subst hm
        decide

theorem citTk_blocked_phTk {k : Nat} (j : Nat) (z : List Char) :
    ∀ u, u ≠ [] → u <:+ phTk j → ¬ citTk k <+: u ++ z := by
  intro u hu hsuf h
  cases u with
  | nil => exact hu rfl
  | cons u0 ut =>
    have hmem : u0 ∈ phTk j := hsuf.sublist.mem (List.mem_cons_self _ _)
    rw [citTk_cons, List.cons_append] at h
    exact mem_phTk_ne_lbracket hmem ((List.cons_prefix_cons.mp h).1).symm

theorem citTk_blocked_citTk {k j : Nat} (hkj : k ≠ j) (z : List Char) :
    ∀ u, u ≠ [] → u <:+ citTk j → ¬ citTk k <+: u ++ z := by
  intro u hu hsuf h
  rw [citTk_cons] at hsuf
  rcases List.suffix_cons_iff.mp hsuf with rfl | hsuf'
  · exact citTk_not_prefix_citTk hkj z h
  · cases u with
    | nil => exact hu rfl
    | cons u0 ut =>
      have hmem : u0 ∈ natChars j ++ [']'] := hsuf'.sublist.mem (List.mem_cons_self _ _)
      have hne : u0 ≠ '[' := by
        rcases List.mem_append.mp hmem with hm | hm
        · exact (isDigit_not_special (natChars_all_digit j u0 hm)).1
        · rw [List.mem_singleton] at hm
          subst hm
          decide
      rw [citTk_cons, List.cons_append] at h
      exact hne ((List.cons_prefix_cons.mp h).1).symm

theorem pass1_step (k : Nat) :
    ∀ (T : Toks) (last : List Char) (f : Nat × Nat → List Char),
      (∀ rkv ∈ T, f rkv.2 = citTk rkv.2.1 ∨ f rkv.2 = phTk rkv.2.1) →
      (∀ rkv ∈ T, CitFree k rkv.1) → CitFree k last →
      replaceAll (citTk k) (phTk k) (renderToks f T last) =
        renderToks (fun kv => if kv.1 = k then phTk k else f kv) T last := by
  intro T
  induction T with
  | nil =>
    intro last f _ _ hlast
    simp only [renderToks]
    exact replaceAll_of_blocked _ (citTk_ne_nil k) (fun u _ hsuf => hlast u hsuf)
  | cons rkv T' ih =>
    intro last f hf hr hlast
    obtain ⟨raw, kv⟩ := rkv
    have htok : (∃ j, f kv = citTk j) ∨ (∃ j, f kv = phTk j) := by
      rcases hf (raw, kv) (List.mem_cons_self _ _) with h | h
      · exact Or.inl ⟨kv.1, h⟩
      · exact Or.inr ⟨kv.1, h⟩
    have hihsub := ih last f
      (fun rkv hm => hf rkv (List.mem_cons_of_mem _ hm))
      (fun rkv hm => hr rkv (List.mem_cons_of_mem _ hm)) hlast
    simp only [renderToks]
    simp only [List.append_assoc]
    have hblkraw : ∀ u, u ≠ [] → u <:+ raw →
        ¬ citTk k <+: u ++ (f kv ++ renderToks f T' last) := by
      intro u hu hsuf h
      by_cases hl : (citTk k).length ≤ u.length
      · exact hr (raw, kv) (List.mem_cons_self _ _) u hsuf (prefix_of_prefix_append h hl)
      · push_neg at hl
        obtain ⟨hup, hq⟩ := prefix_split h hl
        have h1 : 1 ≤ u.length := by
          cases u with
          | nil => exact absurd rfl hu
          | cons a b => simp
        obtain ⟨q0, qt, hdrop, h0, h1'⟩ := citTk_drop_head h1 hl
        rw [hdrop] at hq
        exact not_prefix_token_headed htok h0 h1' hq
    rw [replaceAll_walk (phTk k) (citTk_ne_nil k) raw _ hblkraw]
    rcases hf (raw, kv) (List.mem_cons_self _ _) with hcf | hcf
    · by_cases hk : kv.1 = k
      · rw [hcf, hk]
        rw [replaceAll_step_match (phTk k) (citTk_ne_nil k) (List.prefix_append _ _)]
        rw [List.drop_left, hihsub]
        simp
      · have hblkt : ∀ u, u ≠ [] → u <:+ f kv →
            ¬ citTk k <+: u ++ renderToks f T' last := by
          intro u hu hsuf
          rw [hcf] at hsuf
          exact citTk_blocked_citTk (fun he => hk he.symm) _ u hu hsuf
        rw [replaceAll_walk (phTk k) (citTk_ne_nil k) (f kv) _ hblkt]
        rw [hihsub]
        simp [hk]
    · have hblkt : ∀ u, u ≠ [] → u <:+ f kv →
          ¬ citTk k <+: u ++ renderToks f T' last := by
        intro u hu hsuf
        rw [hcf] at hsuf
        exact citTk_blocked_phTk kv.1 _ u hu hsuf
      rw [replaceAll_walk (phTk k) (citTk_ne_nil k) (f kv) _ hblkt]
      rw [hihsub]
      by_cases hk : kv.1 = k
      · simp [hk, hcf]
      · simp [hk]

/-! ## C1: pass 2 replaces exactly the placeholder occurrences -/

theorem phTk_ne_nil (k : Nat) : phTk k ≠ [] := by
  rw [phTk_cons]
  simp

theorem PH_drop_cases (n : Nat) (h1 : 1 ≤ n) (h2 : n < 14) :
    (((str "__PLACEHOLDER_").drop n).head? ≠ some '[' ∧
      ((str "__PLACEHOLDER_").drop n).head? ≠ some '_' ∧
      (str "__PLACEHOLDER_").drop n ≠ []) ∨
    (str "__PLACEHOLDER_").drop n = '_' :: str "PLACEHOLDER_" ∨
    (str "__PLACEHOLDER_").drop n = ['_'] := by
  interval_cases n <;> decide

theorem underscore_then_not_underscore_not_prefix {x : Char} (hx : x ≠ '_')
    {xs z tok : List Char}
    (htok : (∃ j, tok = citTk j) ∨ (∃ j, tok = phTk j)) :
    ¬ ('_' :: (x :: xs)) <+: tok ++ z := by
  rcases htok with ⟨j, rfl⟩ | ⟨j, rfl⟩
  · rw [citTk_cons, List.cons_append]
    exact not_prefix_of_head_ne (by decide)
  · rw [phTk_cons, List.cons_append]
    intro h
    have h2 := (List.cons_prefix_cons.mp h).2
    rw [List.cons_append] at h2
    exact hx (List.cons_prefix_cons.mp h2).1

theorem phTk_blocked_citTk {k : Nat} (j : Nat) (z : List Char) :
    ∀ u, u ≠ [] → u <:+ citTk j → ¬ phTk k <+: u ++ z := by
  intro u hu hsuf h
  cases u with
  | nil => exact hu rfl
  | cons u0 ut =>
    have hmem : u0 ∈ citTk j := hsuf.sublist.mem (List.mem_cons_self _ _)
    rw [phTk_cons, List.cons_append] at h
    exact mem_citTk_ne_underscore hmem ((List.cons_prefix_cons.mp h).1).symm

theorem phTk_blocked_phTk {k j : Nat} (hkj : k ≠ j) {z : List Char}
    (hnoPL : ¬ str "PLACEHOLDER" <+: z) (hnoPL1 : ¬ str "_PLACEHOLDER" <+: z) :
    ∀ u, u ≠ [] → u <:+ phTk j → ¬ phTk k <+: u ++ z := by
  intro u hu hsuf h
  rw [phTk_decomp] at hsuf
  rcases suffix_append_cases hsuf with hsuf1 | ⟨u', hu', hsufPH, rfl⟩
  · rcases suffix_append_cases hsuf1 with hsuf2 | ⟨d', hd', hsufN, rfl⟩
    · rcases List.suffix_cons_iff.mp hsuf2 with rfl | hsuf3
      · rw [show (['_', '_'] : List Char) ++ z = '_' :: ('_' :: z) from by simp,
          phTk_cons] at h
        have h2 := (List.cons_prefix_cons.mp h).2
        have h3 := (List.cons_prefix_cons.mp h2).2
        have hpl : str "PLACEHOLDER" <+:
            str "PLACEHOLDER_" ++ (natChars k ++ ['_', '_']) :=
          prefix_extend (by decide)
        exact hnoPL (hpl.trans h3)
      · rcases List.suffix_cons_iff.mp hsuf3 with rfl | hsuf4
        · rw [show (['_'] : List Char) ++ z = '_' :: z from by simp, phTk_cons] at h
          have h2 := (List.cons_prefix_cons.mp h).2
          have hpl : str "_PLACEHOLDER" <+:
              '_' :: (str "PLACEHOLDER_" ++ (natChars k ++ ['_', '_'])) := by
            rw [show str "_PLACEHOLDER" = '_' :: str "PLACEHOLDER" from by decide]
            exact List.cons_prefix_cons.mpr ⟨rfl, prefix_extend (by decide)⟩
          exact hnoPL1 (hpl.trans h2)
        · rw [List.suffix_nil] at hsuf4
          exact hu hsuf4
    · cases d' with
      | nil => exact hd' rfl
      | cons d0 dt =>
        have hmem : d0 ∈ natChars j := hsufN.sublist.mem (List.mem_cons_self _ _)
        have hdig := natChars_all_digit j d0 hmem
        rw [show ((d0 :: dt) ++ (['_', '_'] : List Char)) ++ z
            = d0 :: ((dt ++ ['_', '_']) ++ z) from by simp, phTk_cons] at h
        exact (isDigit_not_special hdig).2.2 ((List.cons_prefix_cons.mp h).1).symm
  · have hlPH : (str "__PLACEHOLDER_").length = 14 := by decide
    by_cases h14 : u'.length = 14
    · have hu'eq : u' = str "__PLACEHOLDER_" := by
        have hd := suffix_eq_drop hsufPH
        rw [hlPH, h14] at hd
        simpa using hd
      subst hu'eq
      rw [show (str "__PLACEHOLDER_" ++ (natChars j ++ ['_', '_'])) ++ z
          = phTk j ++ z from by rw [phTk_decomp]] at h
      exact phTk_not_prefix_phTk hkj z h
    · have hlen_le : u'.length ≤ 14 := by
        have hle := hsufPH.length_le
        rwa [hlPH] at hle
      have h1u : 1 ≤ u'.length := by
        cases u' with
        | nil => exact absurd rfl hu'
        | cons a b => simp
      have hdrop : u' = (str "__PLACEHOLDER_").drop (14 - u'.length) := by
        have hd := suffix_eq_drop hsufPH
        rwa [hlPH] at hd
      rcases PH_drop_cases (14 - u'.length) (by omega) (by omega) with ⟨ha, hb, hc⟩ | hB | hC
      · cases hq2 : (str "__PLACEHOLDER_").drop (14 - u'.length) with
        | nil => exact hc hq2
        | cons q0 qt =>
          rw [hdrop, hq2] at h
          rw [show ((q0 :: qt) ++ (natChars j ++ ['_', '_'])) ++ z
              = q0 :: ((qt ++ (natChars j ++ ['_', '_'])) ++ z) from by simp,
            phTk_cons] at h
          have hq0b : q0 ≠ '_' := by
            rw [hq2] at hb
            simpa using hb
          exact hq0b ((List.cons_prefix_cons.mp h).1).symm
      · rw [hdrop, hB] at h
        rw [show (('_' :: str "PLACEHOLDER_") ++ (natChars j ++ ['_', '_'])) ++ z
            = '_' :: ((str "PLACEHOLDER_" ++ (natChars j ++ ['_', '_'])) ++ z) from by simp,
          phTk_cons] at h
        have h2 := (List.cons_prefix_cons.mp h).2
        rw [show (str "PLACEHOLDER_" ++ (natChars j ++ ['_', '_'])) ++ z
            = 'P' :: ((str "LACEHOLDER_" ++ (natChars j ++ ['_', '_'])) ++ z) from by
          rw [show str "PLACEHOLDER_" = 'P' :: str "LACEHOLDER_" from by decide]
          simp] at h2
        exact (by decide : ('_' : Char) ≠ 'P') (List.cons_prefix_cons.mp h2).1
      · rw [hdrop, hC] at h
        obtain ⟨d0, ds, hnat, hdig⟩ := natChars_head_digit j
        rw [show ((['_'] : List Char) ++ (natChars j ++ ['_', '_'])) ++ z
            = '_' :: ((natChars j ++ ['_', '_']) ++ z) from by simp, phTk_cons] at h
        have h2 := (List.cons_prefix_cons.mp h).2
        rw [hnat, show ((d0 :: ds) ++ (['_', '_'] : List Char)) ++ z
            = d0 :: ((ds ++ ['_', '_']) ++ z) from by simp] at h2
        exact (isDigit_not_special hdig).2.2 ((List.cons_prefix_cons.mp h2).1).symm

theorem pass2_step (k v : Nat) :
    ∀ (T : Toks) (last : List Char) (f : Nat × Nat → List Char),
      (∀ rkv ∈ T, f rkv.2 = phTk rkv.2.1 ∨ f rkv.2 = citTk rkv.2.2) →
      (∀ rkv ∈ T, rkv.2.1 = k → f rkv.2 = phTk k) →
      (∀ rkv ∈ T, Hygienic rkv.1) → Hygienic last →
      replaceAll (phTk k) (citTk v) (renderToks f T last) =
        renderToks (fun kv => if kv.1 = k then citTk v else f kv) T last := by
  intro T
  induction T with
  | nil =>
    intro last f _ _ _ hlast
    simp only [renderToks]
    refine replaceAll_of_blocked _ (phTk_ne_nil k) ?_
    intro u hu hsuf h
    have hPH : str "__PLACEHOLDER_" <+: phTk k := by
      rw [phTk_decomp]
      exact List.prefix_append _ _
    have hinf : str "PLACEHOLDER" <:+: str "__PLACEHOLDER_" := ⟨['_', '_'], ['_'], by decide⟩
    exact hlast ((hinf.trans (hPH.trans h).isInfix).trans hsuf.isInfix)
  | cons rkv T' ih =>
    intro last f hf hk1 hr hlast
    obtain ⟨raw, kv⟩ := rkv
    have htok : (∃ j, f kv = citTk j) ∨ (∃ j, f kv = phTk j) := by
      rcases hf (raw, kv) (List.mem_cons_self _ _) with h | h
      · exact Or.inr ⟨kv.1, h⟩
      · exact Or.inl ⟨kv.2, h⟩
    have hfex : ∀ rkv ∈ T', (∃ j, f rkv.2 = citTk j) ∨ (∃ j, f rkv.2 = phTk j) := by
      intro rkv hm
      rcases hf rkv (List.mem_cons_of_mem _ hm) with h | h
      · exact Or.inr ⟨rkv.2.1, h⟩
      · exact Or.inl ⟨rkv.2.2, h⟩
    have hrsub : ∀ rkv ∈ T', Hygienic rkv.1 :=
      fun rkv hm => hr rkv (List.mem_cons_of_mem _ hm)
    have hnoPL : ¬ str "PLACEHOLDER" <+: renderToks f T' last :=
      placeholder_not_prefix_render f T' last hfex hrsub hlast
    have hnoPL1 : ¬ str "_PLACEHOLDER" <+: renderToks f T' last :=
      placeholder1_not_prefix_render f T' last hfex hrsub hlast
    have hihsub := ih last f
      (fun rkv hm => hf rkv (List.mem_cons_of_mem _ hm))
      (fun rkv hm h => hk1 rkv (List.mem_cons_of_mem _ hm) h)
      hrsub hlast
    simp only [renderToks]
    simp only [List.append_assoc]
    have hblkraw : ∀ u, u ≠ [] → u <:+ raw →
        ¬ phTk k <+: u ++ (f kv ++ renderToks f T' last) := by
      intro u hu hsuf h
      by_cases hl : 14 ≤ u.length
      · have hPH : str "__PLACEHOLDER_" <+: phTk k := by
          rw [phTk_decomp]
          exact List.prefix_append _ _
        have hPHu : str "__PLACEHOLDER_" <+: u :=
          prefix_of_prefix_append (hPH.trans h)
            (by rw [show (str "__PLACEHOLDER_").length = 14 from by decide]; exact hl)
        have hinf : str "PLACEHOLDER" <:+: str "__PLACEHOLDER_" :=
          ⟨['_', '_'], ['_'], by decide⟩
        exact hr (raw, kv) (List.mem_cons_self _ _)
          ((hinf.trans hPHu.isInfix).trans hsuf.isInfix)
      · push_neg at hl
        have h1u : 1 ≤ u.length := by
          cases u with
          | nil => exact absurd rfl hu
          | cons a b => simp
        have hlphk : u.length < (phTk k).length := by
          have h14 : (str "__PLACEHOLDER_").length = 14 := by decide
          rw [phTk_decomp, List.length_append, h14]
          omega
        obtain ⟨hup, hq⟩ := prefix_split h hlphk
        rw [phTk_decomp, List.drop_append_of_le_length (by
          rw [show (str "__PLACEHOLDER_").length = 14 from by decide]
          omega)] at hq
        rcases PH_drop_cases u.length h1u hl with ⟨ha, hb, hc⟩ | hB | hC
        · cases hq2 : (str "__PLACEHOLDER_").drop u.length with
          | nil => exact hc hq2
          | cons q0 qt =>
            rw [hq2] at hq
            rw [show (q0 :: qt) ++ (natChars k ++ ['_', '_'])
                = q0 :: (qt ++ (natChars k ++ ['_', '_'])) from by simp] at hq
            have hq0a : q0 ≠ '[' := by
              rw [hq2] at ha
              simpa using ha
            have hq0b : q0 ≠ '_' := by
              rw [hq2] at hb
              simpa using hb
            exact not_prefix_token_headed htok hq0a hq0b hq
        · rw [hB] at hq
          rw [show ('_' :: str "PLACEHOLDER_") ++ (natChars k ++ ['_', '_'])
              = '_' :: ('P' :: (str "LACEHOLDER_" ++ (natChars k ++ ['_', '_']))) from by
            rw [show str "PLACEHOLDER_" = 'P' :: str "LACEHOLDER_" from by decide]
            simp] at hq
          exact underscore_then_not_underscore_not_prefix (by decide) htok hq
        · rw [hC] at hq
          obtain ⟨d0, ds, hnat, hdig⟩ := natChars_head_digit k
          rw [show (['_'] : List Char) ++ (natChars k ++ ['_', '_'])
              = '_' :: (natChars k ++ ['_', '_']) from by simp, hnat,
            show (d0 :: ds) ++ (['_', '_'] : List Char)
              = d0 :: (ds ++ ['_', '_']) from by simp] at hq
          exact underscore_then_not_underscore_not_prefix
            (isDigit_not_special hdig).2.2 htok hq
    rw [replaceAll_walk (citTk v) (phTk_ne_nil k) raw _ hblkraw]
    by_cases hk : kv.1 = k
    · have hcf : f kv = phTk k := hk1 (raw, kv) (List.mem_cons_self _ _) hk
      rw [hcf]
      rw [replaceAll_step_match (citTk v) (phTk_ne_nil k) (List.prefix_append _ _)]
      rw [List.drop_left, hihsub]
      simp [hk]
    · rcases hf (raw, kv) (List.mem_cons_self _ _) with hcf | hcf
      · have hblkt : ∀ u, u ≠ [] → u <:+ f kv →
            ¬ phTk k <+: u ++ renderToks f T' last := by
          intro u hu hsuf
          rw [hcf] at hsuf
          exact phTk_blocked_phTk (fun he => hk he.symm) hnoPL hnoPL1 u hu hsuf
        rw [replaceAll_walk (citTk v) (phTk_ne_nil k) (f kv) _ hblkt, hihsub]
        simp [hk]
      · have hblkt : ∀ u, u ≠ [] → u <:+ f kv →
            ¬ phTk k <+: u ++ renderToks f T' last := by
          intro u hu hsuf
          rw [hcf] at hsuf
          exact phTk_blocked_citTk kv.2 _ u hu hsuf
        rw [replaceAll_walk (citTk v) (phTk_ne_nil k) (f kv) _ hblkt, hihsub]
        simp [hk]

/-! ## C1: the citation tokenizer and its specification -/

theorem tokCi_nil (m : List (Nat × Nat)) : tokCi m [] = ([], []) := by
  rw [tokCi]

theorem tokCi_some {m : List (Nat × Nat)} {c : Char} {rest : List Char} {kv : Nat × Nat}
    (h : m.find? (fun kv => (citTk kv.1).isPrefixOf (c :: rest)) = some kv) :
    tokCi m (c :: rest) =
      (([], kv) :: (tokCi m ((c :: rest).drop (citTk kv.1).length)).1,
       (tokCi m ((c :: rest).drop (citTk kv.1).length)).2) := by
  rw [tokCi]
  simp [h]

theorem tokCi_none_nil {m : List (Nat × Nat)} {c : Char} {rest : List Char}
    (h : m.find? (fun kv => (citTk kv.1).isPrefixOf (c :: rest)) = none)
    (h2 : (tokCi m rest).1 = []) :
    tokCi m (c :: rest) = ([], c :: (tokCi m rest).2) := by
  rw [tokCi]
  simp [h, h2]

theorem tokCi_none_cons {m : List (Nat × Nat)} {c : Char} {rest raw : List Char}
    {kv' : Nat × Nat} {T' : Toks}
    (h : m.find? (fun kv => (citTk kv.1).isPrefixOf (c :: rest)) = none)
    (h2 : (tokCi m rest).1 = (raw, kv') :: T') :
    tokCi m (c :: rest) = ((c :: raw, kv') :: T', (tokCi m rest).2) := by
  rw [tokCi]
  simp [h, h2]

theorem citFree_nil (k : Nat) : CitFree k [] := by
  intro u hu hp
  rw [List.suffix_nil] at hu
  subst hu
  exact citTk_ne_nil k (List.prefix_nil.mp hp)

theorem tokCi_render_aux (m : List (Nat × Nat)) :
    ∀ n s, s.length ≤ n →
      renderToks (fun kv => citTk kv.1) (tokCi m s).1 (tokCi m s).2 = s := by
  intro n
  induction n with
  | zero =>
    intro s hs
    have hnil : s = [] := List.eq_nil_of_length_eq_zero (by omega)
    subst hnil
    rw [tokCi_nil]
    simp [renderToks]
  | succ n ih =>
    intro s hs
    cases s with
    | nil =>
      rw [tokCi_nil]
      simp [renderToks]
    | cons c rest =>
      cases hfind : m.find? (fun kv => (citTk kv.1).isPrefixOf (c :: rest)) with
      | some kv =>
        rw [tokCi_some hfind]
        simp only [renderToks, List.nil_append]
        have hlc : 0 < (citTk kv.1).length := List.length_pos.mpr (citTk_ne_nil kv.1)
        have hdlen : ((c :: rest).drop (citTk kv.1).length).length ≤ n := by
          rw [List.length_drop]
          simp only [List.length_cons] at hs ⊢
          omega
        rw [ih _ hdlen]
        have hp : (citTk kv.1).isPrefixOf (c :: rest) = true := by
          have hq := List.find?_some hfind
          simpa using hq
        exact append_drop_of_prefix (List.isPrefixOf_iff_prefix.mp hp)
      | none =>
        have hrl : rest.length ≤ n := by
          simp only [List.length_cons] at hs
          omega
        cases h2 : (tokCi m rest).1 with
        | nil =>
          rw [tokCi_none_nil hfind h2]
          simp only [renderToks]
          have hrst := ih rest hrl
          rw [h2] at hrst
          simp only [renderToks] at hrst
          rw [hrst]
        | cons rkv T' =>
          obtain ⟨raw, kv'⟩ := rkv
          rw [tokCi_none_cons hfind h2]
          simp only [renderToks]
          have hrst := ih rest hrl
          rw [h2] at hrst
          simp only [renderToks] at hrst
          conv_rhs => rw [← hrst]
          simp

theorem tokCi_render (m : List (Nat × Nat)) (s : List Char) :
    renderToks (fun kv => citTk kv.1) (tokCi m s).1 (tokCi m s).2 = s :=
  tokCi_render_aux m s.length s le_rfl

theorem tokCi_mem_aux (m : List (Nat × Nat)) :
    ∀ n s, s.length ≤ n → ∀ rkv ∈ (tokCi m s).1, rkv.2 ∈ m := by
  intro n
  induction n with
  | zero =>
    intro s hs
    have hnil : s = [] := List.eq_nil_of_length_eq_zero (by omega)
    subst hnil
    rw [tokCi_nil]
    simp
  | succ n ih =>
    intro s hs
    cases s with
    | nil =>
      rw [tokCi_nil]
      simp
    | cons c rest =>
      cases hfind : m.find? (fun kv => (citTk kv.1).isPrefixOf (c :: rest)) with
      | some kv =>
        rw [tokCi_some hfind]
        have hlc : 0 < (citTk kv.1).length := List.length_pos.mpr (citTk_ne_nil kv.1)
        have hdlen : ((c :: rest).drop (citTk kv.1).length).length ≤ n := by
          rw [List.length_drop]
          simp only [List.length_cons] at hs ⊢
          omega
        intro rkv hmem
        rcases List.mem_cons.mp hmem with rfl | hmem'
        · exact List.mem_of_find?_eq_some hfind
        · exact ih _ hdlen rkv hmem'
      | none =>
        have hrl : rest.length ≤ n := by
          simp only [List.length_cons] at hs
          omega
        cases h2 : (tokCi m rest).1 with
        | nil =>
          rw [tokCi_none_nil hfind h2]
          simp
        | cons rkv0 T' =>
          obtain ⟨raw, kv'⟩ := rkv0
          rw [tokCi_none_cons hfind h2]
          intro rkv hmem
          rcases List.mem_cons.mp hmem with rfl | hmem'
          · exact ih rest hrl (raw, kv') (by rw [h2]; exact List.mem_cons_self _ _)
          · exact ih rest hrl rkv (by rw [h2]; exact List.mem_cons_of_mem _ hmem')

theorem tokCi_citFree_aux (m : List (Nat × Nat)) {k0 v0 : Nat} (hm : (k0, v0) ∈ m) :
    ∀ n s, s.length ≤ n →
      (∀ rkv ∈ (tokCi m s).1, CitFree k0 rkv.1) ∧ CitFree k0 (tokCi m s).2 := by
  intro n
  induction n with
  | zero =>
    intro s hs
    have hnil : s = [] := List.eq_nil_of_length_eq_zero (by omega)
    subst hnil
    rw [tokCi_nil]
    exact ⟨by simp, citFree_nil k0⟩
  | succ n ih =>
    intro s hs
    cases s with
    | nil =>
      rw [tokCi_nil]
      exact ⟨by simp, citFree_nil k0⟩
    | cons c rest =>
      cases hfind : m.find? (fun kv => (citTk kv.1).isPrefixOf (c :: rest)) with
      | some kv =>
        rw [tokCi_some hfind]
        have hlc : 0 < (citTk kv.1).length := List.length_pos.mpr (citTk_ne_nil kv.1)
        have hdlen : ((c :: rest).drop (citTk kv.1).length).length ≤ n := by
          rw [List.length_drop]
          simp only [List.length_cons] at hs ⊢
          omega
        refine ⟨?_, (ih _ hdlen).2⟩
        intro rkv hmem
        rcases List.mem_cons.mp hmem with rfl | hmem'
        · exact citFree_nil k0
        · exact (ih _ hdlen).1 rkv hmem'
      | none =>
        have hrl : rest.length ≤ n := by
          simp only [List.length_cons] at hs
          omega
        have hnopre : ¬ citTk k0 <+: (c :: rest) := by
          intro hp
          have hb := List.find?_eq_none.mp hfind (k0, v0) hm
          exact hb (List.isPrefixOf_iff_prefix.mpr hp)
        cases h2 : (tokCi m rest).1 with
        | nil =>
          rw [tokCi_none_nil hfind h2]
          have hr2 : (tokCi m rest).2 = rest := by
            have hrst := tokCi_render m rest
            rw [h2] at hrst
            simpa [renderToks] using hrst
          refine ⟨by simp, ?_⟩
          intro u hu hp
          rcases List.suffix_cons_iff.mp hu with rfl | hu'
          · rw [hr2] at hp
            exact hnopre hp
          · exact (ih rest hrl).2 u hu' hp
        | cons rkv0 T' =>
          obtain ⟨raw, kv'⟩ := rkv0
          rw [tokCi_none_cons hfind h2]
          have hrawpre : raw <+: rest := by
            have hrst := tokCi_render m rest
            rw [h2] at hrst
            simp only [renderToks] at hrst
            exact ⟨citTk kv'.1 ++ renderToks (fun kv => citTk kv.1) T' (tokCi m rest).2,
              by conv_rhs => rw [← hrst]
                 simp⟩
          have hfirst : CitFree k0 (c :: raw) := by
            intro u hu hp
            rcases List.suffix_cons_iff.mp hu with rfl | hu'
            · have hcr : (c :: raw) <+: (c :: rest) :=
                List.cons_prefix_cons.mpr ⟨rfl, hrawpre⟩
              exact hnopre (hp.trans hcr)
            · exact (ih rest hrl).1 (raw, kv')
                (by rw [h2]; exact List.mem_cons_self _ _) u hu' hp
          refine ⟨?_, (ih rest hrl).2⟩
          intro rkv hmem
          rcases List.mem_cons.mp hmem with rfl | hmem'
          · exact hfirst
          · exact (ih rest hrl).1 rkv (by rw [h2]; exact List.mem_cons_of_mem _ hmem')

theorem infix_renderToks (f : Nat × Nat → List Char) :
    ∀ (T : Toks) (last : List Char),
      (∀ rkv ∈ T, rkv.1 <:+: renderToks f T last) ∧
        last <:+: renderToks f T last := by
  intro T
  induction T with
  | nil =>
    intro last
    exact ⟨by simp, List.infix_refl _⟩
  | cons rkv T' ih =>
    intro last
    obtain ⟨raw, kv⟩ := rkv
    simp only [renderToks]
    have hsuf : renderToks f T' last <:+ (raw ++ f kv) ++ renderToks f T' last :=
      ⟨raw ++ f kv, rfl⟩
    constructor
    · intro rkv hmem
      rcases List.mem_cons.mp hmem with rfl | hmem'
      · exact (prefix_extend (List.prefix_append raw (f kv))).isInfix
      · exact ((ih last).1 rkv hmem').trans hsuf.isInfix
    · exact ((ih last).2).trans hsuf.isInfix

theorem renderToks_congr {f g : Nat × Nat → List Char} :
    ∀ (T : Toks) (last : List Char), (∀ rkv ∈ T, f rkv.2 = g rkv.2) →
      renderToks f T last = renderToks g T last := by
  intro T
  induction T with
  | nil =>
    intro last _
    rfl
  | cons rkv T' ih =>
    intro last h
    obtain ⟨raw, kv⟩ := rkv
    simp only [renderToks]
    rw [h (raw, kv) (List.mem_cons_self _ _),
      ih last (fun rkv hm => h rkv (List.mem_cons_of_mem _ hm))]

/-! ## C1: the spec-side simultaneous substitution over the same tokens -/

theorem simSubstGo_skip (m : List (Nat × Nat)) :
    ∀ (n : Nat) (s : List Char), simSubstGo m n s = simSubstGo m 0 (s.drop n) := by
  intro n
  induction n with
  | zero =>
    intro s
    rw [List.drop_zero]
  | succ n ih =>
    intro s
    cases s with
    | nil => rfl
    | cons c rest =>
      rw [show simSubstGo m (n + 1) (c :: rest) = simSubstGo m n rest from rfl, ih,
        List.drop_succ_cons]

theorem simSubst_render_aux (m : List (Nat × Nat)) :
    ∀ n s, s.length ≤ n →
      simSubst m s = renderToks (fun kv => citTk kv.2) (tokCi m s).1 (tokCi m s).2 := by
  intro n
  induction n with
  | zero =>
    intro s hs
    have hnil : s = [] := List.eq_nil_of_length_eq_zero (by omega)
    subst hnil
    rw [tokCi_nil]
    simp [simSubst, simSubstGo, renderToks]
  | succ n ih =>
    intro s hs
    cases s with
    | nil =>
      rw [tokCi_nil]
      simp [simSubst, simSubstGo, renderToks]
    | cons c rest =>
      cases hfind : m.find? (fun kv => (citTk kv.1).isPrefixOf (c :: rest)) with
      | some kv =>
        have hlc : 0 < (citTk kv.1).length := List.length_pos.mpr (citTk_ne_nil kv.1)
        have hdlen : ((c :: rest).drop (citTk kv.1).length).length ≤ n := by
          rw [List.length_drop]
          simp only [List.length_cons] at hs ⊢
          omega
        have hstep : simSubst m (c :: rest) =
            citTk kv.2 ++ simSubstGo m ((citTk kv.1).length - 1) rest := by
          simp [simSubst, simSubstGo, hfind]
        have hd : rest.drop ((citTk kv.1).length - 1) =
            (c :: rest).drop (citTk kv.1).length := by
          obtain ⟨l, hl⟩ : ∃ l, (citTk kv.1).length = l + 1 :=
            ⟨(citTk kv.1).length - 1, by omega⟩
          rw [hl, List.drop_succ_cons]
          simp
        rw [hstep, simSubstGo_skip, hd, tokCi_some hfind]
        simp only [renderToks, List.nil_append]
        rw [← ih _ hdlen]
        rfl
      | none =>
        have hrl : rest.length ≤ n := by
          simp only [List.length_cons] at hs
          omega
        have hstep : simSubst m (c :: rest) = c :: simSubst m rest := by
          simp [simSubst, simSubstGo, hfind]
        cases h2 : (tokCi m rest).1 with
        | nil =>
          rw [tokCi_none_nil hfind h2, hstep, ih rest hrl, h2]
          simp only [renderToks]
        | cons rkv0 T' =>
          obtain ⟨raw, kv'⟩ := rkv0
          rw [tokCi_none_cons hfind h2, hstep, ih rest hrl, h2]
          simp only [renderToks]
          simp

theorem simSubst_render (m : List (Nat × Nat)) (s : List Char) :
    simSubst m s = renderToks (fun kv => citTk kv.2) (tokCi m s).1 (tokCi m s).2 :=
  simSubst_render_aux m s.length s le_rfl

/-! ## C1: folding the two passes over the whole citation map -/

theorem nodup_fst_eq {m : List (Nat × Nat)} (hnd : (m.map Prod.fst).Nodup)
    {a b : Nat × Nat} (ha : a ∈ m) (hb : b ∈ m) (h : a.1 = b.1) : a.2 = b.2 := by
  induction m with
  | nil => cases ha
  | cons x m' ih =>
    rw [List.map_cons, List.nodup_cons] at hnd
    rcases List.mem_cons.mp ha with rfl | ha'
    · rcases List.mem_cons.mp hb with rfl | hb'
      · rfl
      · have hmem : b.1 ∈ m'.map Prod.fst := List.mem_map_of_mem Prod.fst hb'
        rw [← h] at hmem
        exact absurd hmem hnd.1
    · rcases List.mem_cons.mp hb with rfl | hb'
      · have hmem : a.1 ∈ m'.map Prod.fst := List.mem_map_of_mem Prod.fst ha'
        rw [h] at hmem
        exact absurd hmem hnd.1
      · exact ih hnd.2 ha' hb'

theorem pass1_fold :
    ∀ (todo : List (Nat × Nat)) (T : Toks) (last : List Char) (f : Nat × Nat → List Char),
      (∀ rkv ∈ T, f rkv.2 = citTk rkv.2.1 ∨ f rkv.2 = phTk rkv.2.1) →
      (∀ kv ∈ todo, (∀ rkv ∈ T, CitFree kv.1 rkv.1) ∧ CitFree kv.1 last) →
      todo.foldl (fun t kv => replaceAll (citTk kv.1) (phTk kv.1) t) (renderToks f T last) =
        renderToks (fun kv => if kv.1 ∈ todo.map Prod.fst then phTk kv.1 else f kv) T last := by
  intro todo
  induction todo with
  | nil =>
    intro T last f _ _
    simp only [List.foldl_nil, List.map_nil]
    exact (renderToks_congr T last (fun rkv hm => by simp)).symm
  | cons kv0 todo' ih =>
    intro T last f hshape hcf
    simp only [List.foldl_cons]
    rw [pass1_step kv0.1 T last f hshape
      (hcf kv0 (List.mem_cons_self _ _)).1 (hcf kv0 (List.mem_cons_self _ _)).2]
    have hshape1 : ∀ rkv ∈ T,
        (if rkv.2.1 = kv0.1 then phTk kv0.1 else f rkv.2) = citTk rkv.2.1 ∨
        (if rkv.2.1 = kv0.1 then phTk kv0.1 else f rkv.2) = phTk rkv.2.1 := by
      intro rkv hm
      by_cases h : rkv.2.1 = kv0.1
      · rw [if_pos h, h]
        exact Or.inr rfl
      · rw [if_neg h]
        exact hshape rkv hm
    rw [ih T last (fun kv => if kv.1 = kv0.1 then phTk kv0.1 else f kv) hshape1
      (fun kv hm => hcf kv (List.mem_cons_of_mem _ hm))]
    apply renderToks_congr
    intro rkv hm
    by_cases h1 : rkv.2.1 ∈ todo'.map Prod.fst
    · simp [h1]
    · by_cases h2 : rkv.2.1 = kv0.1
      · simp [h1, h2]
      · simp [h1, h2]

theorem pass2_fold :
    ∀ (todo : List (Nat × Nat)) (T : Toks) (last : List Char) (f : Nat × Nat → List Char),
      (todo.map Prod.fst).Nodup →
      (∀ rkv ∈ T, f rkv.2 = phTk rkv.2.1 ∨ f rkv.2 = citTk rkv.2.2) →
      (∀ kv0 ∈ todo, ∀ rkv ∈ T, rkv.2.1 = kv0.1 → f rkv.2 = phTk kv0.1) →
      (∀ kv0 ∈ todo, ∀ rkv ∈ T, rkv.2.1 = kv0.1 → rkv.2.2 = kv0.2) →
      (∀ rkv ∈ T, Hygienic rkv.1) → Hygienic last →
      todo.foldl (fun t kv => replaceAll (phTk kv.1) (citTk kv.2) t) (renderToks f T last) =
        renderToks (fun kv => if kv.1 ∈ todo.map Prod.fst then citTk kv.2 else f kv) T last := by
  intro todo
  induction todo with
  | nil =>
    intro T last f _ _ _ _ _ _
    simp only [List.foldl_nil, List.map_nil]
    exact (renderToks_congr T last (fun rkv hm => by simp)).symm
  | cons kv0 todo' ih =>
    intro T last f hnd hshape hproc hagree hr hlast
    rw [List.map_cons, List.nodup_cons] at hnd
    simp only [List.foldl_cons]
    rw [pass2_step kv0.1 kv0.2 T last f hshape
      (fun rkv hm h => hproc kv0 (List.mem_cons_self _ _) rkv hm h) hr hlast]
    have hshape1 : ∀ rkv ∈ T,
        (if rkv.2.1 = kv0.1 then citTk kv0.2 else f rkv.2) = phTk rkv.2.1 ∨
        (if rkv.2.1 = kv0.1 then citTk kv0.2 else f rkv.2) = citTk rkv.2.2 := by
      intro rkv hm
      by_cases h : rkv.2.1 = kv0.1
      · have hv := hagree kv0 (List.mem_cons_self _ _) rkv hm h
        rw [if_pos h, hv]
        exact Or.inr rfl
      · rw [if_neg h]
        exact hshape rkv hm
    have hproc1 : ∀ kv1 ∈ todo', ∀ rkv ∈ T, rkv.2.1 = kv1.1 →
        (if rkv.2.1 = kv0.1 then citTk kv0.2 else f rkv.2) = phTk kv1.1 := by
      intro kv1 hm1 rkv hm h
      have hne : rkv.2.1 ≠ kv0.1 := by
        intro he
        apply hnd.1
        rw [← he, h]
        exact List.mem_map_of_mem Prod.fst hm1
      rw [if_neg hne]
      exact hproc kv1 (List.mem_cons_of_mem _ hm1) rkv hm h
    rw [ih T last (fun kv => if kv.1 = kv0.1 then citTk kv0.2 else f kv) hnd.2 hshape1 hproc1
      (fun kv1 hm1 rkv hm h => hagree kv1 (List.mem_cons_of_mem _ hm1) rkv hm h) hr hlast]
    apply renderToks_congr
    intro rkv hm
    by_cases h1 : rkv.2.1 ∈ todo'.map Prod.fst
    · simp [h1]
    · by_cases h2 : rkv.2.1 = kv0.1
      · have hv := hagree kv0 (List.mem_cons_self _ _) rkv hm h2
        simp [h1, h2, hv]
      · simp [h1, h2]

theorem hasSubstr_complete {pat s : List Char} (h : pat <:+: s) : hasSubstr pat s = true := by
  induction s with
  | nil =>
    rw [List.infix_nil] at h
    subst h
    simp [hasSubstr, List.isPrefixOf_iff_prefix]
  | cons c rest ih =>
    rcases List.infix_cons_iff.mp h with hp | hi
    · simp [hasSubstr, List.isPrefixOf_iff_prefix.mpr hp]
    · simp [hasSubstr, ih hi]

theorem not_infix_of_hasSubstr_false {pat s : List Char}
    (h : hasSubstr pat s = false) : ¬ pat <:+: s := by
  intro hi
  rw [hasSubstr_complete hi] at h
  simp at h

theorem update_citation_index_eq_simSubst (m : List (Nat × Nat)) (s : List Char)
    (hnd : (m.map Prod.fst).Nodup)
    (hhyg : hasSubstr (str "PLACEHOLDER") s = false) :
    update_citation_index s m = simSubst m s := by
  have hyg : Hygienic s := not_infix_of_hasSubstr_false hhyg
  have hmem : ∀ rkv ∈ (tokCi m s).1, rkv.2 ∈ m := tokCi_mem_aux m s.length s le_rfl
  have hrend := tokCi_render m s
  have hinf := infix_renderToks (fun kv => citTk kv.1) (tokCi m s).1 (tokCi m s).2
  rw [hrend] at hinf
  have hygraw : ∀ rkv ∈ (tokCi m s).1, Hygienic rkv.1 :=
    fun rkv hm hcon => hyg (hcon.trans (hinf.1 rkv hm))
  have hyglast : Hygienic (tokCi m s).2 := fun hcon => hyg (hcon.trans hinf.2)
  have hcf : ∀ kv ∈ m, (∀ rkv ∈ (tokCi m s).1, CitFree kv.1 rkv.1) ∧
      CitFree kv.1 (tokCi m s).2 := by
    intro kv hkv
    obtain ⟨a, b⟩ := kv
    exact tokCi_citFree_aux m hkv s.length s le_rfl
  have hstep1 : m.foldl (fun t kv => replaceAll (citTk kv.1) (phTk kv.1) t) s
      = renderToks (fun kv => phTk kv.1) (tokCi m s).1 (tokCi m s).2 := by
    have e1 : List.foldl (fun t kv => replaceAll (citTk kv.1) (phTk kv.1) t) s m
        = List.foldl (fun t kv => replaceAll (citTk kv.1) (phTk kv.1) t)
          (renderToks (fun kv => citTk kv.1) (tokCi m s).1 (tokCi m s).2) m := by
      rw [hrend]
    refine e1.trans ((pass1_fold m (tokCi m s).1 (tokCi m s).2 (fun kv => citTk kv.1)
      (fun rkv hm => Or.inl rfl) hcf).trans (renderToks_congr _ _ ?_))
    intro rkv hm
    simp [List.mem_map_of_mem Prod.fst (hmem rkv hm)]
  have hstep2 : m.foldl (fun t kv => replaceAll (phTk kv.1) (citTk kv.2) t)
      (renderToks (fun kv => phTk kv.1) (tokCi m s).1 (tokCi m s).2)
      = renderToks (fun kv => citTk kv.2) (tokCi m s).1 (tokCi m s).2 := by
    refine (pass2_fold m (tokCi m s).1 (tokCi m s).2 (fun kv => phTk kv.1) hnd
      (fun rkv hm => Or.inl rfl)
      (fun kv0 hm0 rkv hm h => by
        show phTk rkv.2.1 = phTk kv0.1
        rw [h])
      (fun kv0 hm0 rkv hm h => nodup_fst_eq hnd (hmem rkv hm) hm0 h)
      hygraw hyglast).trans (renderToks_congr _ _ ?_)
    intro rkv hm
    simp [List.mem_map_of_mem Prod.fst (hmem rkv hm)]
  calc update_citation_index s m
      = m.foldl (fun t kv => replaceAll (phTk kv.1) (citTk kv.2) t)
        (m.foldl (fun t kv => replaceAll (citTk kv.1) (phTk kv.1) t) s) := rfl
    _ = renderToks (fun kv => citTk kv.2) (tokCi m s).1 (tokCi m s).2 := by
        rw [hstep1]
        exact hstep2
    _ = simSubst m s := (simSubst_render m s).symm

/-- C1, counterexample to the claim as stated: the claim quantifies over
every text `s`, but on the input `"__PLACEHOLDER_2__"` — which contains no
occurrence of `[1]` or `[2]` at all — `update_citation_index` with the map
`{1 ↦ 2, 2 ↦ 1}` returns `"[1]"`, a changed text, because the second pass
consumes the placeholder-shaped input. A simultaneous rewrite of the
citation occurrences alone (the spec-modelled `simSubst`) leaves this
input unchanged, so the output also differs from the claimed rewrite. -/
theorem C1_counterexample :
    update_citation_index (str "__PLACEHOLDER_2__") [(1, 2), (2, 1)] = str "[1]" ∧
    hasSubstr (citTk 1) (str "__PLACEHOLDER_2__") = false ∧
    hasSubstr (citTk 2) (str "__PLACEHOLDER_2__") = false ∧
    simSubst [(1, 2), (2, 1)] (str "__PLACEHOLDER_2__") = str "__PLACEHOLDER_2__" ∧
    str "__PLACEHOLDER_2__" ≠ str "[1]" := by
  decide

/-- C1, amended: for every citation map `m` with distinct old indices (as a
Python dict guarantees) and every text `s` that does not contain the letter
block `"PLACEHOLDER"`, `update_citation_index` equals the spec-modelled
simultaneous rewrite `simSubst` of every occurrence of `[old]` to `[new]`,
with no double-substitution even when old and new index sets overlap. -/
theorem C1_remap_amended (m : List (Nat × Nat)) (s : List Char)
    (hnd : (m.map Prod.fst).Nodup)
    (hhyg : hasSubstr (str "PLACEHOLDER") s = false) :
    update_citation_index s m = simSubst m s :=
  update_citation_index_eq_simSubst m s hnd hhyg

/-- C1, witness: the amended theorem applied at the claim's own example,
`update_citation_index "a[1]b[2]c" {1 ↦ 2, 2 ↦ 1} = "a[2]b[1]c"`. -/
theorem C1_witness :
    (([(1, 2), (2, 1)] : List (Nat × Nat)).map Prod.fst).Nodup ∧
    hasSubstr (str "PLACEHOLDER") (str "a[1]b[2]c") = false ∧
    update_citation_index (str "a[1]b[2]c") [(1, 2), (2, 1)] = str "a[2]b[1]c" :=
  ⟨by decide, by decide,
    (C1_remap_amended [(1, 2), (2, 1)] (str "a[1]b[2]c") (by decide) (by decide)).trans
      (by decide)⟩

end Storm
